import Mathlib

/-!
# EventEmitter.hpp: a fixed-capacity event emitter

Shallow embedding of `src/EventEmitter.hpp`.

* The three template parameters are the fields of `Params`.
* A `const char*` argument is the list of bytes found at the pointer; the
  string ends at the first `0` byte, or at the end of the list (an implicit
  terminator).
* A callback pointer (`void*`) is a natural number: only its identity is ever
  inspected by the emitter.  Calling a callback is recorded in a trace of
  `(callback, args)` pairs; callbacks do not re-enter the emitter.
* `std::array` members are lists that keep their length; `a[i] = v` is
  `List.set`, `a[i]` is `List.getD`.
* A pointer to an event (`Event*`) is the index of the slot in `events`.
* The constructor does not initialise `events`; `construct` therefore takes
  the previous content of that memory as an argument.
* `size_t` arithmetic never overflows here: counters stay below the template
  parameters.  `MaxEventNameLength - 1` is truncated subtraction; the class
  needs `MaxEventNameLength >= 1` (`char name[0]` is ill-formed), and results
  about names carry that hypothesis, directly or through `strlen name <
  MaxEventNameLength`.
-/

/-- Template parameters `MaxEvents`, `MaxListeners`, `MaxEventNameLength`. -/
structure Params where
  MaxEvents : Nat
  MaxListeners : Nat
  MaxEventNameLength : Nat
deriving DecidableEq, Repr

/-- Identity of a callback, the `void*` kept in a listener. -/
abbrev Callback := Nat

/-- Values of the argument pack handed to `emit`. -/
abbrev Args := List Nat

/-- Bytes at a `const char*`. -/
abbrev CStr := List Nat

/-- `struct Listener`. -/
structure Listener where
  callback : Callback
  once : Bool
  active : Bool
deriving DecidableEq, Repr, Inhabited

/-- `struct Event`. -/
structure Event where
  name : List Nat
  listeners : List Listener
  listenerCount : Nat
  active : Bool
deriving DecidableEq, Repr, Inhabited

/-- Data members of `class EventEmitter`. -/
structure EventEmitter where
  events : List Event
  eventCount : Nat
  maxListeners : Nat
deriving DecidableEq, Repr

/-- Outcome of `emit`: the returned flag, the callbacks called (in order, with
their arguments) and the emitter afterwards. -/
structure EmitResult where
  ret : Bool
  calls : List (Callback × Args)
  state : EventEmitter
deriving DecidableEq, Repr

namespace EventEmitter

/-! ## `<cstring>` -/

/-- The `n` bytes `std::strncpy(dest, src, n)` writes: the bytes of `src` up to
its terminator, then `0` bytes up to `n` in all. -/
def strncpyBytes : CStr → Nat → List Nat
  | _, 0 => []
  | [], n + 1 => 0 :: strncpyBytes [] n
  | c :: cs, n + 1 =>
    if c = 0 then 0 :: strncpyBytes [] n else c :: strncpyBytes cs n

/-- Buffer `dest` after `std::strncpy(dest, src, n)`. -/
def strncpy (dest : List Nat) (src : CStr) (n : Nat) : List Nat :=
  strncpyBytes src n ++ dest.drop n

/-- Test `std::strncmp(s1, s2, n) == 0`: compare at most `n` bytes, stopping
after a common terminator. -/
def strncmpEq : List Nat → List Nat → Nat → Bool
  | _, _, 0 => true
  | s1, s2, n + 1 =>
    if s1.headD 0 ≠ s2.headD 0 then false
    else if s1.headD 0 = 0 then true
    else strncmpEq s1.tail s2.tail n

/-! ## Private members -/

/-- Loop of `findEvent`, at index `i` with `k` iterations left. -/
def findEventLoop (P : Params) (e : EventEmitter) (name : CStr) : Nat → Nat → Option Nat
  | _, 0 => none
  | i, k + 1 =>
    if (e.events.getD i default).active
        && strncmpEq (e.events.getD i default).name name P.MaxEventNameLength then
      some i
    else findEventLoop P e name (i + 1) k

/-- `findEvent`: the first of the first `eventCount` slots that is active and
whose name compares equal; `none` is `nullptr`. -/
def findEvent (P : Params) (e : EventEmitter) (name : CStr) : Option Nat :=
  findEventLoop P e name 0 e.eventCount

/-- `createEvent`: `none` (for `nullptr`) when the pool is full, otherwise the
slot written and the emitter afterwards. -/
def createEvent (P : Params) (e : EventEmitter) (name : CStr) : Option (Nat × EventEmitter) :=
  if e.eventCount ≥ P.MaxEvents then none
  else
    let ev := e.events.getD e.eventCount default
    let nm := (strncpy ev.name name (P.MaxEventNameLength - 1)).set (P.MaxEventNameLength - 1) 0
    let ev1 : Event := { ev with name := nm, listenerCount := 0, active := true }
    some (e.eventCount,
      { e with events := e.events.set e.eventCount ev1, eventCount := e.eventCount + 1 })

/-! ## Public members -/

/-- The constructor: `eventCount(0), maxListeners(MaxListeners)`; `events` keeps
whatever `mem` the storage held. -/
def construct (P : Params) (mem : List Event) : EventEmitter :=
  { events := mem, eventCount := 0, maxListeners := P.MaxListeners }

/-- The block `if (event->listenerCount < maxListeners) { ... }` shared by `on`
and `once`, for the event in slot `idx`. -/
def addListener (e : EventEmitter) (idx : Nat) (l : Listener) : EventEmitter :=
  let ev := e.events.getD idx default
  if ev.listenerCount < e.maxListeners then
    let ev1 : Event :=
      { ev with listeners := ev.listeners.set ev.listenerCount l,
                listenerCount := ev.listenerCount + 1 }
    { e with events := e.events.set idx ev1 }
  else e

/-- `on(eventName, callback)` (the identifier `on` is reserved, hence `on_`). -/
def on_ (P : Params) (e : EventEmitter) (eventName : CStr) (callback : Callback) : EventEmitter :=
  match findEvent P e eventName with
  | some idx => addListener e idx ⟨callback, false, true⟩
  | none =>
    match createEvent P e eventName with
    | none => e
    | some (idx, e1) => addListener e1 idx ⟨callback, false, true⟩

/-- `once(eventName, callback)`. -/
def once (P : Params) (e : EventEmitter) (eventName : CStr) (callback : Callback) : EventEmitter :=
  match findEvent P e eventName with
  | some idx => addListener e idx ⟨callback, true, true⟩
  | none =>
    match createEvent P e eventName with
    | none => e
    | some (idx, e1) => addListener e1 idx ⟨callback, true, true⟩

/-- Loop of `emit` over the listener array `ls`, at index `i` with `k`
iterations left, `activeCount` survivors so far and `tr` the calls made so far.
Returns the array, `activeCount` and the calls. -/
def emitLoop (args : Args) :
    List Listener → Nat → Nat → Nat → List (Callback × Args) →
      List Listener × Nat × List (Callback × Args)
  | ls, _, 0, activeCount, tr => (ls, activeCount, tr)
  | ls, i, k + 1, activeCount, tr =>
    if (ls.getD i default).active then
      if (ls.getD i default).once then
        emitLoop args (ls.set i { ls.getD i default with active := false }) (i + 1) k
          activeCount (tr ++ [((ls.getD i default).callback, args)])
      else
        emitLoop args (if i ≠ activeCount then ls.set activeCount (ls.getD i default) else ls)
          (i + 1) k (activeCount + 1) (tr ++ [((ls.getD i default).callback, args)])
    else emitLoop args ls (i + 1) k activeCount tr

/-- `emit(eventName, args...)`. -/
def emit (P : Params) (e : EventEmitter) (eventName : CStr) (args : Args) : EmitResult :=
  match findEvent P e eventName with
  | none => ⟨false, [], e⟩
  | some idx =>
    let ev := e.events.getD idx default
    let r := emitLoop args ev.listeners 0 ev.listenerCount 0 []
    let ev1 : Event :=
      { ev with listeners := r.1, listenerCount := r.2.1,
                active := if r.2.1 = 0 then false else ev.active }
    ⟨true, r.2.2, { e with events := e.events.set idx ev1 }⟩

/-- Loop of `removeListener`, at index `i` with `k` iterations left and
`activeCount` survivors so far. -/
def removeLoop (callback : Callback) : List Listener → Nat → Nat → Nat → List Listener × Nat
  | ls, _, 0, activeCount => (ls, activeCount)
  | ls, i, k + 1, activeCount =>
    if (ls.getD i default).callback ≠ callback then
      removeLoop callback (if i ≠ activeCount then ls.set activeCount (ls.getD i default) else ls)
        (i + 1) k (activeCount + 1)
    else removeLoop callback ls (i + 1) k activeCount

/-- `removeListener(eventName, callback)`. -/
def removeListener (P : Params) (e : EventEmitter) (eventName : CStr) (callback : Callback) :
    EventEmitter :=
  match findEvent P e eventName with
  | none => e
  | some idx =>
    let ev := e.events.getD idx default
    let r := removeLoop callback ev.listeners 0 ev.listenerCount 0
    let ev1 : Event :=
      { ev with listeners := r.1, listenerCount := r.2,
                active := if r.2 = 0 then false else ev.active }
    { e with events := e.events.set idx ev1 }

/-- Loop of `removeAllListeners()` over all `MaxEvents` slots. -/
def resetLoop : List Event → Nat → Nat → List Event
  | evs, _, 0 => evs
  | evs, i, k + 1 =>
    resetLoop (evs.set i { evs.getD i default with active := false, listenerCount := 0 }) (i + 1) k

/-- `removeAllListeners(eventName)`; `none` is the default argument `nullptr`. -/
def removeAllListeners (P : Params) (e : EventEmitter) (eventName : Option CStr) : EventEmitter :=
  match eventName with
  | some name =>
    match findEvent P e name with
    | some idx =>
      let ev1 : Event := { e.events.getD idx default with listenerCount := 0, active := false }
      { e with events := e.events.set idx ev1 }
    | none => e
  | none => { e with eventCount := 0, events := resetLoop e.events 0 P.MaxEvents }

/-- `setMaxListeners(n)`. -/
def setMaxListeners (P : Params) (e : EventEmitter) (n : Nat) : EventEmitter :=
  { e with maxListeners := if n > P.MaxListeners then P.MaxListeners else n }

/-- `getMaxListeners()`. -/
def getMaxListeners (e : EventEmitter) : Nat := e.maxListeners

/-! ## Calls and reachable states -/

/-- A call of a public member function that can modify the emitter. -/
inductive Op where
  | on_ (name : CStr) (cb : Callback)
  | once (name : CStr) (cb : Callback)
  | emit (name : CStr) (args : Args)
  | removeListener (name : CStr) (cb : Callback)
  | removeAllListeners (name : Option CStr)
  | setMaxListeners (n : Nat)
deriving DecidableEq, Repr

/-- The emitter after one call. -/
def step (P : Params) (e : EventEmitter) : Op → EventEmitter
  | .on_ name cb => on_ P e name cb
  | .once name cb => once P e name cb
  | .emit name args => (emit P e name args).state
  | .removeListener name cb => removeListener P e name cb
  | .removeAllListeners name => removeAllListeners P e name
  | .setMaxListeners n => setMaxListeners P e n

/-- The emitter after a sequence of calls. -/
def run (P : Params) (e : EventEmitter) (ops : List Op) : EventEmitter :=
  ops.foldl (step P) e

/-- The storage handed to the constructor has the layout of
`std::array<Event, MaxEvents>`; its content is arbitrary. -/
def WfMem (P : Params) (mem : List Event) : Prop :=
  mem.length = P.MaxEvents ∧
    ∀ ev ∈ mem, ev.listeners.length = P.MaxListeners ∧ ev.name.length = P.MaxEventNameLength

instance (P : Params) (mem : List Event) : Decidable (WfMem P mem) := by
  unfold WfMem; infer_instance

/-- States reachable from the constructor by calls of public members. -/
inductive Reachable (P : Params) : EventEmitter → Prop
  | construct (mem : List Event) : WfMem P mem → Reachable P (construct P mem)
  | step (e : EventEmitter) (op : Op) : Reachable P e → Reachable P (step P e op)

/-- The string at a `const char*`: the bytes before the first `0`. -/
def cstr (s : CStr) : List Nat := s.takeWhile (fun c => c ≠ 0)

/-- `std::strlen`. -/
def strlen (s : CStr) : Nat := (cstr s).length

/-- A call whose event name, when it registers a listener, is shorter than
`MaxEventNameLength`. -/
def Op.shortName (P : Params) : Op → Prop
  | .on_ name _ => strlen name < P.MaxEventNameLength
  | .once name _ => strlen name < P.MaxEventNameLength
  | _ => True

instance (P : Params) (op : Op) : Decidable (Op.shortName P op) := by
  cases op <;> unfold Op.shortName <;> infer_instance

/-- States reachable from the constructor when every name given to `on` and
`once` is shorter than `MaxEventNameLength`. -/
inductive ReachableShort (P : Params) : EventEmitter → Prop
  | construct (mem : List Event) : WfMem P mem → ReachableShort P (construct P mem)
  | step (e : EventEmitter) (op : Op) :
      ReachableShort P e → Op.shortName P op → ReachableShort P (step P e op)

/-- The event in slot `i` of the table. -/
def slot (e : EventEmitter) (i : Nat) : Event := e.events.getD i default

/-- The listeners of an event: slots `0 .. listenerCount - 1` of its array. -/
def storedOf (ev : Event) : List Listener := ev.listeners.take ev.listenerCount

/-- The listeners of the event in slot `i`. -/
def stored (e : EventEmitter) (i : Nat) : List Listener := storedOf (slot e i)

/-- Content of `ev.name` after `createEvent` for `name`, for a buffer of
`MaxEventNameLength > 0` bytes. -/
def storedName (P : Params) (name : CStr) : List Nat :=
  strncpyBytes name (P.MaxEventNameLength - 1) ++ [0]

/-- Storage with every byte zero. -/
def zeroMem (P : Params) : List Event :=
  List.replicate P.MaxEvents
    ⟨List.replicate P.MaxEventNameLength 0, List.replicate P.MaxListeners ⟨0, false, false⟩, 0, false⟩

/-- The test of `findEvent` on slot `j`. -/
def matchesAt (P : Params) (e : EventEmitter) (name : CStr) (j : Nat) : Bool :=
  (slot e j).active && strncmpEq (slot e j).name name P.MaxEventNameLength

/-- Layout of one element of `events`. -/
def EventShape (P : Params) (ev : Event) : Prop :=
  ev.listeners.length = P.MaxListeners ∧ ev.name.length = P.MaxEventNameLength

/-- Properties of an event in one of the first `eventCount` slots. -/
def EventOk (P : Params) (ev : Event) : Prop :=
  ev.listenerCount ≤ P.MaxListeners ∧
  (∀ l ∈ storedOf ev, l.active = true) ∧
  (ev.active = false → ev.listenerCount = 0) ∧
  (0 < P.MaxEventNameLength → ∃ nm : CStr, ev.name = storedName P nm)

/-- Invariant of the reachable states. -/
structure Inv (P : Params) (e : EventEmitter) : Prop where
  length : e.events.length = P.MaxEvents
  shape : ∀ ev ∈ e.events, EventShape P ev
  count : e.eventCount ≤ P.MaxEvents
  cap : e.maxListeners ≤ P.MaxListeners
  ok : ∀ i, i < e.eventCount → EventOk P (slot e i)

/-- The emitter with slot `idx` replaced, the shape of every update the member
functions make to an event. -/
def setSlot (e : EventEmitter) (idx : Nat) (ev : Event) : EventEmitter :=
  { e with events := e.events.set idx ev }

/-- The emitter `createEvent` leaves behind when the pool is not full. -/
def afterCreate (P : Params) (e : EventEmitter) (name : CStr) : EventEmitter :=
  { e with
    events := e.events.set e.eventCount
      { slot e e.eventCount with
        name := (strncpy (slot e e.eventCount).name name (P.MaxEventNameLength - 1)).set
          (P.MaxEventNameLength - 1) 0,
        listenerCount := 0, active := true },
    eventCount := e.eventCount + 1 }

/-- Common body of `on` (listener `{callback, false, true}`) and `once`
(listener `{callback, true, true}`). -/
def registerWith (P : Params) (e : EventEmitter) (eventName : CStr) (l : Listener) :
    EventEmitter :=
  match findEvent P e eventName with
  | some idx => addListener e idx l
  | none =>
    match createEvent P e eventName with
    | none => e
    | some (idx, e1) => addListener e1 idx l

/-- The event `emit` leaves in the slot it dispatched. -/
def afterEmit (args : Args) (ev : Event) : Event :=
  { ev with
    listeners := (emitLoop args ev.listeners 0 ev.listenerCount 0 []).1,
    listenerCount := (emitLoop args ev.listeners 0 ev.listenerCount 0 []).2.1,
    active := if (emitLoop args ev.listeners 0 ev.listenerCount 0 []).2.1 = 0 then false
      else ev.active }

/-- The event `removeListener` leaves in the slot it scanned. -/
def afterRemove (cb : Callback) (ev : Event) : Event :=
  { ev with
    listeners := (removeLoop cb ev.listeners 0 ev.listenerCount 0).1,
    listenerCount := (removeLoop cb ev.listeners 0 ev.listenerCount 0).2,
    active := if (removeLoop cb ev.listeners 0 ev.listenerCount 0).2 = 0 then false
      else ev.active }

/-- Template arguments of the worked examples. -/
def exParams : Params := ⟨2, 2, 4⟩

/-- A freshly constructed emitter over zeroed storage. -/
def exFresh : EventEmitter := construct exParams (zeroMem exParams)

/-- The event name `"x"`. -/
def nameX : CStr := [120]

/-- The event name `"y"`. -/
def nameY : CStr := [121]

/-- The event name `"abcd"`, as long as `MaxEventNameLength` of `exParams`. -/
def nameAbcd : CStr := [97, 98, 99, 100]

/-- The event name `"abc"`. -/
def nameAbc : CStr := [97, 98, 99]

/-- Relation between an emitter and a later one in which no slot was added, no
name was rewritten and no event was reactivated. -/
def Frame (e e1 : EventEmitter) : Prop :=
  e1.eventCount = e.eventCount ∧
  ∀ j, (slot e1 j).name = (slot e j).name ∧ ((slot e1 j).active = true → (slot e j).active = true)

/-- One registration on `name`: `once(name, r.1)` when `r.2` is set, otherwise
`on(name, r.1)`. -/
def register (P : Params) (name : CStr) (e : EventEmitter) (r : Callback × Bool) :
    EventEmitter :=
  if r.2 then once P e name r.1 else on_ P e name r.1

/-- The listener a registration writes. -/
def listenerOfReg (r : Callback × Bool) : Listener := ⟨r.1, r.2, true⟩

/-- The default template arguments `<10, 5, 16>`. -/
def defaultParams : Params := ⟨10, 5, 16⟩

/-- The 16-character event name `"abcdefghijklmnop"`. -/
def name16 : CStr := [97, 98, 99, 100, 101, 102, 103, 104, 105, 106, 107, 108, 109, 110, 111, 112]

/-- The 15-character event name `"abcdefghijklmno"`. -/
def name15 : CStr := [97, 98, 99, 100, 101, 102, 103, 104, 105, 106, 107, 108, 109, 110, 111]

/-- No two active events in the first `eventCount` slots hold the same name. -/
def UniqueNames (e : EventEmitter) : Prop :=
  ∀ i j, i < e.eventCount → j < e.eventCount →
    (slot e i).active = true → (slot e j).active = true →
    (slot e i).name = (slot e j).name → i = j

/-- Invariant of the states reached with short registration names. -/
def ShortInv (P : Params) (e : EventEmitter) : Prop :=
  UniqueNames e ∧ (0 < e.eventCount → 0 < P.MaxEventNameLength)

/-- Test that `on`/`once` for `name` reach the assignment to
`listeners[listenerCount]`: the event is found or can be created, and its
`listenerCount` is below `maxListeners`. -/
def appends (P : Params) (e : EventEmitter) (name : CStr) : Bool :=
  match findEvent P e name with
  | some idx => decide ((slot e idx).listenerCount < e.maxListeners)
  | none => decide (e.eventCount < P.MaxEvents) && decide (0 < e.maxListeners)

/-- The listeners of the event `findEvent` finds for `name`; none when it
finds no event. -/
def listenersOf (P : Params) (e : EventEmitter) (name : CStr) : List Listener :=
  match findEvent P e name with
  | some idx => stored e idx
  | none => []

/-- A run of `emit(name, a)` calls, one for each `a` of the list, with the
outcome of each. -/
def emitRun (P : Params) (e : EventEmitter) (name : CStr) : List Args → List EmitResult
  | [] => []
  | a :: as => emit P e name a :: emitRun P (emit P e name a).state name as

/-- The calls were all made through listeners that the emitter `e` stores (in
a slot below `listenerCount` of one event below `eventCount`), each at most
once and in their order. -/
def CallsFrom (e : EventEmitter) (calls : List (Callback × Args)) : Prop :=
  calls = [] ∨
    ∃ (j : Nat) (l : List Listener), j < e.eventCount ∧ l.Sublist (stored e j) ∧
      calls.map Prod.fst = l.map (fun x => x.callback)

/-- Every listener table of `t` holds only listeners that `e` stores in the
same slot, in their order. -/
def Within (e t : EventEmitter) : Prop :=
  ∀ j, j < t.eventCount →
    stored t j = [] ∨ (j < e.eventCount ∧ (stored t j).Sublist (stored e j))

/-- First half of `on` and `once`: the event found for the name, or else the
one created, with the emitter at that point; `none` when `createEvent` returns
`nullptr`. -/
def eventFor (P : Params) (e : EventEmitter) (name : CStr) : Option (Nat × EventEmitter) :=
  match findEvent P e name with
  | some idx => some (idx, e)
  | none => createEvent P e name

/-- A call that does not set the cap below the listeners already held: every
call except a `setMaxListeners(n)` made while some event in the first
`eventCount` slots holds more than `n` listeners. -/
def Op.capFits (e : EventEmitter) : Op → Prop
  | .setMaxListeners n => ∀ i, i < e.eventCount → (slot e i).listenerCount ≤ n
  | _ => True

instance (e : EventEmitter) (op : Op) : Decidable (Op.capFits e op) := by
  cases op <;> unfold Op.capFits <;> infer_instance

/-- States reachable from the constructor when `setMaxListeners(n)` is only
called while no event holds more than `n` listeners; the cap may be lowered
and raised at will otherwise. -/
inductive ReachableCapFits (P : Params) : EventEmitter → Prop
  | construct (mem : List Event) : WfMem P mem → ReachableCapFits P (construct P mem)
  | step (e : EventEmitter) (op : Op) :
      ReachableCapFits P e → Op.capFits e op → ReachableCapFits P (step P e op)

/-- A call that is not an `on`/`once` made while `maxListeners` is 0. -/
def Op.capAllows (e : EventEmitter) : Op → Prop
  | .on_ _ _ => 0 < e.maxListeners
  | .once _ _ => 0 < e.maxListeners
  | _ => True

instance (e : EventEmitter) (op : Op) : Decidable (Op.capAllows e op) := by
  cases op <;> unfold Op.capAllows <;> infer_instance

/-- States reachable from the constructor when `maxListeners` is at least 1 at
every `on` and `once`. -/
inductive ReachableCapPos (P : Params) : EventEmitter → Prop
  | construct (mem : List Event) : WfMem P mem → ReachableCapPos P (construct P mem)
  | step (e : EventEmitter) (op : Op) :
      ReachableCapPos P e → Op.capAllows e op → ReachableCapPos P (step P e op)

/-- Every event in the first `eventCount` slots has at most `maxListeners`
listeners. -/
def CapInv (e : EventEmitter) : Prop :=
  ∀ i, i < e.eventCount → (slot e i).listenerCount ≤ e.maxListeners

/-- Every event in the first `eventCount` slots without listeners is inactive. -/
def ZeroInv (e : EventEmitter) : Prop :=
  ∀ i, i < e.eventCount → (slot e i).listenerCount = 0 → (slot e i).active = false

/-! ## Names: `strncpy` against `strncmp` -/

theorem strncpyBytes_length (s : CStr) (n : Nat) : (strncpyBytes s n).length = n := by
  induction n generalizing s with
  | zero => simp [strncpyBytes]
  | succ n ih =>
    cases s with
    | nil => simp [strncpyBytes, ih]
    | cons c cs =>
      by_cases hc : c = 0 <;> simp [strncpyBytes, hc, ih]

theorem cstr_nil : cstr [] = [] := rfl

theorem cstr_cons_zero (cs : CStr) : cstr (0 :: cs) = [] := by
  simp [cstr]

theorem cstr_cons_ne (c : Nat) (cs : CStr) (hc : c ≠ 0) : cstr (c :: cs) = c :: cstr cs := by
  simp [cstr, List.takeWhile_cons, hc]

theorem cstr_eq_nil_iff (q : CStr) : cstr q = [] ↔ q.headD 0 = 0 := by
  cases q with
  | nil => simp [cstr]
  | cons c cs =>
    by_cases hc : c = 0
    · subst hc; simp [cstr]
    · simp [cstr_cons_ne c cs hc, hc]

theorem strncmpEq_zero_cons (rest q : List Nat) (n : Nat) :
    strncmpEq (0 :: rest) q (n + 1) = true ↔ cstr q = [] := by
  cases q with
  | nil => simp [strncmpEq, cstr]
  | cons d ds =>
    by_cases hd : d = 0
    · subst hd; simp [strncmpEq, cstr]
    · have hd2 : ¬ (0 = d) := fun h => hd h.symm
      simp [strncmpEq, cstr_cons_ne d ds hd, hd2]

/-- The name comparison of `findEvent` against a buffer written by `createEvent`. -/
theorem strncmpEq_stored (nm q : CStr) (n : Nat) :
    strncmpEq (strncpyBytes nm n ++ [0]) q (n + 1) = true ↔ cstr q = (cstr nm).take n := by
  induction n generalizing nm q with
  | zero =>
    simp only [strncpyBytes, List.nil_append, List.take_zero]
    exact strncmpEq_zero_cons [] q 0
  | succ n ih =>
    cases nm with
    | nil =>
      simp only [strncpyBytes, List.cons_append, cstr_nil, List.take_nil]
      exact strncmpEq_zero_cons _ q _
    | cons c cs =>
      by_cases hc : c = 0
      · subst hc
        simp only [strncpyBytes, if_true, List.cons_append, cstr_cons_zero, List.take_nil]
        exact strncmpEq_zero_cons _ q _
      · simp only [strncpyBytes, hc, if_false, List.cons_append, strncmpEq, List.headD_cons,
          List.tail_cons, cstr_cons_ne c cs hc, List.take_succ_cons]
        cases q with
        | nil => simp [hc, cstr]
        | cons d ds =>
          by_cases hd : c = d
          · subst hd
            simp only [List.headD_cons, ne_eq, not_true_eq_false, if_false, hc, List.tail_cons,
              cstr_cons_ne c ds hc, List.cons.injEq, true_and]
            exact ih cs ds
          · have hd2 : ¬ (d = c) := fun h => hd h.symm
            by_cases hd0 : d = 0
            · subst hd0; simp [hd, cstr_cons_zero]
            · simp [hd, hd2, cstr_cons_ne d ds hd0]

theorem strncpyBytes_congr (a b : CStr) (n : Nat) (h : (cstr a).take n = (cstr b).take n) :
    strncpyBytes a n = strncpyBytes b n := by
  induction n generalizing a b with
  | zero => simp [strncpyBytes]
  | succ n ih =>
    have hnil : ∀ s : CStr, cstr s = [] → strncpyBytes s (n + 1) = 0 :: strncpyBytes [] n := by
      intro s hs
      cases s with
      | nil => simp [strncpyBytes]
      | cons c cs =>
        by_cases hc : c = 0
        · simp [strncpyBytes, hc]
        · rw [cstr_cons_ne c cs hc] at hs; cases hs
    cases a with
    | nil =>
      have hb : cstr b = [] := by
        cases hb : cstr b with
        | nil => rfl
        | cons x xs => rw [hb] at h; simp [cstr_nil] at h
      rw [hnil b hb]; simp [strncpyBytes]
    | cons c cs =>
      by_cases hc : c = 0
      · subst hc
        have hb : cstr b = [] := by
          cases hb : cstr b with
          | nil => rfl
          | cons x xs => rw [hb] at h; simp [cstr_cons_zero] at h
        rw [hnil b hb]; simp [strncpyBytes]
      · rw [cstr_cons_ne c cs hc, List.take_succ_cons] at h
        cases b with
        | nil => simp [cstr_nil] at h
        | cons d ds =>
          by_cases hd : d = 0
          · subst hd; simp [cstr_cons_zero] at h
          · rw [cstr_cons_ne d ds hd, List.take_succ_cons] at h
            injection h with h1 h2
            subst h1
            simp [strncpyBytes, hc, ih cs ds h2]

/-- The name buffer `createEvent` leaves behind. -/
theorem createEvent_name (P : Params) (buf : List Nat) (name : CStr)
    (hN : 0 < P.MaxEventNameLength) (hbuf : buf.length = P.MaxEventNameLength) :
    (strncpy buf name (P.MaxEventNameLength - 1)).set (P.MaxEventNameLength - 1) 0
      = storedName P name := by
  unfold strncpy storedName
  have hl : (strncpyBytes name (P.MaxEventNameLength - 1)).length = P.MaxEventNameLength - 1 :=
    strncpyBytes_length _ _
  have hd : (buf.drop (P.MaxEventNameLength - 1)).length = 1 := by
    rw [List.length_drop]; omega
  obtain ⟨x, hx⟩ := List.length_eq_one.mp hd
  rw [hx, List.set_append_right _ _ (by omega), hl]
  simp

theorem storedName_length (P : Params) (name : CStr) (hN : 0 < P.MaxEventNameLength) :
    (storedName P name).length = P.MaxEventNameLength := by
  unfold storedName
  rw [List.length_append, strncpyBytes_length]; simp; omega

/-- A stored name compares equal to `q` exactly when `q` is its truncation. -/
theorem strncmpEq_storedName (P : Params) (nm q : CStr) (hN : 0 < P.MaxEventNameLength) :
    strncmpEq (storedName P nm) q P.MaxEventNameLength = true
      ↔ cstr q = (cstr nm).take (P.MaxEventNameLength - 1) := by
  have h := strncmpEq_stored nm q (P.MaxEventNameLength - 1)
  have e : P.MaxEventNameLength - 1 + 1 = P.MaxEventNameLength := by omega
  rw [e] at h
  exact h

/-- Two stored names that both compare equal to `q` are the same buffer. -/
theorem storedName_eq_of_match (P : Params) (nm q : CStr) (hN : 0 < P.MaxEventNameLength)
    (h : strncmpEq (storedName P nm) q P.MaxEventNameLength = true) :
    storedName P nm = storedName P q := by
  rw [strncmpEq_storedName P nm q hN] at h
  unfold storedName
  congr 1
  apply strncpyBytes_congr
  rw [h, List.take_take]; simp

/-! ## Array lemmas and the compacting loops -/

theorem getD_of_lt {α : Type} (ls : List α) (d : α) (i : Nat) (h : i < ls.length) :
    ls.getD i d = ls[i] := List.getD_eq_getElem _ _ h

theorem segment_succ {α : Type} (ls : List α) (i k : Nat) (h : i < ls.length) :
    (ls.drop i).take (k + 1) = ls[i] :: (ls.drop (i + 1)).take k := by
  rw [List.drop_eq_getElem_cons h, List.take_succ_cons]

theorem take_set_ge {α : Type} (ls : List α) (a m : Nat) (x : α) (h : m ≤ a) :
    (ls.set a x).take m = ls.take m := by
  rw [List.set_take]
  apply List.set_eq_of_length_le
  rw [List.length_take]; omega

theorem take_succ_set {α : Type} (ls : List α) (a : Nat) (x : α) (h : a < ls.length) :
    (ls.set a x).take (a + 1) = ls.take a ++ [x] := by
  rw [List.take_succ, take_set_ge ls a a x (le_refl a)]
  simp [h]

theorem take_succ_getElem {α : Type} (ls : List α) (a : Nat) (h : a < ls.length) :
    ls.take (a + 1) = ls.take a ++ [ls[a]] := by
  rw [List.take_succ]
  simp [h]

theorem drop_set_lt {α : Type} (ls : List α) (a m : Nat) (x : α) (h : a < m) :
    (ls.set a x).drop m = ls.drop m := List.drop_set_of_lt x ls h

/-- The write `listeners[activeCount] = listeners[i]` of the compacting loops. -/
theorem compact_write (ls : List Listener) (i ac : Nat) (hac : ac ≤ i) (hi : i < ls.length) :
    (if i ≠ ac then ls.set ac ls[i] else ls).length = ls.length ∧
    (if i ≠ ac then ls.set ac ls[i] else ls).drop (i + 1) = ls.drop (i + 1) ∧
    (if i ≠ ac then ls.set ac ls[i] else ls).take (ac + 1) = ls.take ac ++ [ls[i]] := by
  by_cases hne : i = ac
  · subst hne
    simp only [ne_eq, not_true_eq_false, if_false, true_and]
    exact take_succ_getElem ls i hi
  · simp only [ne_eq, hne, not_false_eq_true, if_true]
    exact ⟨by simp, drop_set_lt ls ac (i + 1) _ (by omega), take_succ_set ls ac _ (by omega)⟩

/-! ## The loop of `emit` -/

theorem emitLoop_length (args : Args) (k : Nat) :
    ∀ (ls : List Listener) (i ac : Nat) (tr : List (Callback × Args)),
      (emitLoop args ls i k ac tr).1.length = ls.length := by
  induction k with
  | zero => intro ls i ac tr; simp [emitLoop]
  | succ k ih =>
    intro ls i ac tr
    unfold emitLoop
    split_ifs <;> simp [ih]

/-- What the loop of `emit` computes: the survivors are the active listeners
not marked `once`, moved to the front in order, and every active listener is
called, in order. -/
theorem emitLoop_spec (args : Args) (k : Nat) :
    ∀ (ls : List Listener) (i ac : Nat) (tr : List (Callback × Args)),
      ac ≤ i → i + k ≤ ls.length →
      (emitLoop args ls i k ac tr).2.1
          = ac + (((ls.drop i).take k).filter (fun l => l.active && !l.once)).length ∧
      (emitLoop args ls i k ac tr).1.take (emitLoop args ls i k ac tr).2.1
          = ls.take ac ++ ((ls.drop i).take k).filter (fun l => l.active && !l.once) ∧
      (emitLoop args ls i k ac tr).2.2
          = tr ++ (((ls.drop i).take k).filter (fun l => l.active)).map
              (fun l => (l.callback, args)) := by
  induction k with
  | zero => intro ls i ac tr _ _; simp [emitLoop]
  | succ k ih =>
    intro ls i ac tr hac hlen
    have hi : i < ls.length := by omega
    rw [segment_succ ls i k hi]
    unfold emitLoop
    rw [getD_of_lt ls default i hi]
    by_cases hact : ls[i].active = true
    · by_cases honce : ls[i].once = true
      · simp only [hact, honce, if_true]
        have h := fun x : Listener => ih (ls.set i x) (i + 1) ac
          (tr ++ [(ls[i].callback, args)]) (by omega) (by simp; omega)
        simp only [drop_set_lt ls i (i + 1) _ (Nat.lt_succ_self i), take_set_ge ls i ac _ hac] at h
        refine ⟨?_, ?_, ?_⟩
        · rw [(h _).1]; simp [List.filter_cons, hact, honce]
        · rw [(h _).2.1]; simp [List.filter_cons, hact, honce]
        · rw [(h _).2.2]; simp [List.filter_cons, hact]
      · simp only [hact, honce, if_true, if_false, Bool.false_eq_true]
        obtain ⟨hl1, hl2, hl3⟩ := compact_write ls i ac hac hi
        have h := ih (if i ≠ ac then ls.set ac ls[i] else ls) (i + 1) (ac + 1)
          (tr ++ [(ls[i].callback, args)]) (by omega) (by rw [hl1]; omega)
        rw [hl2, hl3] at h
        obtain ⟨h1, h2, h3⟩ := h
        refine ⟨?_, ?_, ?_⟩
        · rw [h1]; simp [List.filter_cons, hact, honce]; omega
        · rw [h2]; simp [List.filter_cons, hact, honce]
        · rw [h3]; simp [List.filter_cons, hact]
    · simp only [hact, if_false, Bool.false_eq_true]
      have h := ih ls (i + 1) ac tr (by omega) (by omega)
      obtain ⟨h1, h2, h3⟩ := h
      refine ⟨?_, ?_, ?_⟩
      · rw [h1]; simp [List.filter_cons, hact]
      · rw [h2]; simp [List.filter_cons, hact]
      · rw [h3]; simp [List.filter_cons, hact]

/-! ## The loop of `removeListener` -/

theorem removeLoop_length (cb : Callback) (k : Nat) :
    ∀ (ls : List Listener) (i ac : Nat), (removeLoop cb ls i k ac).1.length = ls.length := by
  induction k with
  | zero => intro ls i ac; simp [removeLoop]
  | succ k ih =>
    intro ls i ac
    unfold removeLoop
    split_ifs <;> simp [ih]

/-- What the loop of `removeListener` computes: the survivors are the listeners
with another callback, moved to the front in order. -/
theorem removeLoop_spec (cb : Callback) (k : Nat) :
    ∀ (ls : List Listener) (i ac : Nat),
      ac ≤ i → i + k ≤ ls.length →
      (removeLoop cb ls i k ac).2
          = ac + (((ls.drop i).take k).filter (fun l => decide (l.callback ≠ cb))).length ∧
      (removeLoop cb ls i k ac).1.take (removeLoop cb ls i k ac).2
          = ls.take ac ++ ((ls.drop i).take k).filter (fun l => decide (l.callback ≠ cb)) := by
  induction k with
  | zero => intro ls i ac _ _; simp [removeLoop]
  | succ k ih =>
    intro ls i ac hac hlen
    have hi : i < ls.length := by omega
    rw [segment_succ ls i k hi]
    unfold removeLoop
    rw [getD_of_lt ls default i hi]
    by_cases hcb : ls[i].callback = cb
    · simp only [hcb, ne_eq, not_true_eq_false, if_false]
      have h := ih ls (i + 1) ac (by omega) (by omega)
      obtain ⟨h1, h2⟩ := h
      refine ⟨?_, ?_⟩
      · rw [h1]; simp [List.filter_cons, hcb]
      · rw [h2]; simp [List.filter_cons, hcb]
    · simp only [ne_eq, hcb, not_false_eq_true, if_true]
      obtain ⟨hl1, hl2, hl3⟩ := compact_write ls i ac hac hi
      have h := ih (if i ≠ ac then ls.set ac ls[i] else ls) (i + 1) (ac + 1)
        (by omega) (by rw [hl1]; omega)
      rw [hl2, hl3] at h
      obtain ⟨h1, h2⟩ := h
      refine ⟨?_, ?_⟩
      · rw [h1]; simp [List.filter_cons, hcb]; omega
      · rw [h2]; simp [List.filter_cons, hcb]

/-! ## `findEvent` -/

theorem findEventLoop_eq (P : Params) (e : EventEmitter) (name : CStr) (i k : Nat) :
    findEventLoop P e name i (k + 1)
      = if matchesAt P e name i = true then some i else findEventLoop P e name (i + 1) k := by
  rw [findEventLoop]; rfl

theorem findEventLoop_some (P : Params) (e : EventEmitter) (name : CStr) (k : Nat) :
    ∀ i idx, findEventLoop P e name i k = some idx ↔
      (i ≤ idx ∧ idx < i + k ∧ matchesAt P e name idx = true ∧
        ∀ j, i ≤ j → j < idx → matchesAt P e name j = false) := by
  induction k with
  | zero =>
    intro i idx
    simp only [findEventLoop, add_zero]
    constructor
    · intro h; cases h
    · intro h; omega
  | succ k ih =>
    intro i idx
    rw [findEventLoop_eq]
    by_cases hm : matchesAt P e name i = true
    · simp only [hm, if_true, Option.some.injEq]
      constructor
      · intro h; subst h
        exact ⟨le_refl _, by omega, hm, fun j h1 h2 => by omega⟩
      · rintro ⟨h1, _, _, h4⟩
        by_contra hne
        have := h4 i (le_refl _) (by omega)
        rw [hm] at this; cases this
    · simp only [hm, if_false, Bool.false_eq_true]
      rw [ih]
      have hm2 : matchesAt P e name i = false := by simpa using hm
      constructor
      · rintro ⟨h1, h2, h3, h4⟩
        refine ⟨by omega, by omega, h3, fun j hj1 hj2 => ?_⟩
        by_cases hji : j = i
        · subst hji; exact hm2
        · exact h4 j (by omega) hj2
      · rintro ⟨h1, h2, h3, h4⟩
        have : i ≠ idx := by
          intro h; subst h; rw [h3] at hm2; cases hm2
        exact ⟨by omega, by omega, h3, fun j hj1 hj2 => h4 j (by omega) hj2⟩

theorem findEventLoop_none (P : Params) (e : EventEmitter) (name : CStr) (k : Nat) :
    ∀ i, findEventLoop P e name i k = none ↔
      ∀ j, i ≤ j → j < i + k → matchesAt P e name j = false := by
  induction k with
  | zero =>
    intro i
    simp only [findEventLoop, add_zero, true_iff]
    intro j h1 h2; omega
  | succ k ih =>
    intro i
    rw [findEventLoop_eq]
    by_cases hm : matchesAt P e name i = true
    · simp only [hm, if_true]
      constructor
      · intro h; cases h
      · intro h
        have := h i (le_refl _) (by omega)
        rw [hm] at this; cases this
    · simp only [hm, if_false, Bool.false_eq_true]
      rw [ih]
      have hm2 : matchesAt P e name i = false := by simpa using hm
      constructor
      · intro h j hj1 hj2
        by_cases hji : j = i
        · subst hji; exact hm2
        · exact h j (by omega) (by omega)
      · intro h j hj1 hj2
        exact h j (by omega) (by omega)

/-- `findEvent` returns the first slot below `eventCount` that passes the test. -/
theorem findEvent_some (P : Params) (e : EventEmitter) (name : CStr) (idx : Nat) :
    findEvent P e name = some idx ↔
      (idx < e.eventCount ∧ matchesAt P e name idx = true ∧
        ∀ j, j < idx → matchesAt P e name j = false) := by
  unfold findEvent
  rw [findEventLoop_some]
  constructor
  · rintro ⟨_, h2, h3, h4⟩
    exact ⟨by omega, h3, fun j hj => h4 j (Nat.zero_le _) hj⟩
  · rintro ⟨h2, h3, h4⟩
    exact ⟨Nat.zero_le _, by omega, h3, fun j _ hj => h4 j hj⟩

/-- `findEvent` returns `nullptr` when no slot below `eventCount` passes the test. -/
theorem findEvent_none (P : Params) (e : EventEmitter) (name : CStr) :
    findEvent P e name = none ↔ ∀ j, j < e.eventCount → matchesAt P e name j = false := by
  unfold findEvent
  rw [findEventLoop_none]
  constructor
  · intro h j hj; exact h j (Nat.zero_le _) (by omega)
  · intro h j _ hj; exact h j (by omega)

/-! ## Updating one slot -/

theorem slot_setSlot (e : EventEmitter) (idx j : Nat) (ev : Event) (h : idx < e.events.length) :
    slot (setSlot e idx ev) j = if j = idx then ev else slot e j := by
  unfold slot setSlot
  simp only [List.getD_eq_getElem?_getD]
  by_cases hj : j = idx
  · subst hj; simp [h]
  · have hj2 : idx ≠ j := fun h => hj h.symm
    simp [hj, List.getElem?_set_ne hj2]

theorem slot_setSlot_self (e : EventEmitter) (idx : Nat) (ev : Event) (h : idx < e.events.length) :
    slot (setSlot e idx ev) idx = ev := by
  rw [slot_setSlot e idx idx ev h]; simp

theorem slot_setSlot_ne (e : EventEmitter) (idx j : Nat) (ev : Event) (h : j ≠ idx) :
    slot (setSlot e idx ev) j = slot e j := by
  unfold slot setSlot
  have hj2 : idx ≠ j := fun h2 => h h2.symm
  simp [List.getElem?_set_ne hj2]

theorem slot_mem (e : EventEmitter) (i : Nat) (h : i < e.events.length) :
    slot e i ∈ e.events := by
  unfold slot
  rw [List.getD_eq_getElem _ _ h]
  exact List.getElem_mem h

theorem inv_setSlot (P : Params) (e : EventEmitter) (idx : Nat) (ev : Event)
    (hI : Inv P e) (hidx : idx < e.eventCount) (hs : EventShape P ev) (ho : EventOk P ev) :
    Inv P (setSlot e idx ev) := by
  have hlen : idx < e.events.length := by have := hI.length; have := hI.count; omega
  refine ⟨?_, ?_, hI.count, hI.cap, ?_⟩
  · simp [setSlot, hI.length]
  · intro ev1 hev1
    simp only [setSlot] at hev1
    rcases List.mem_or_eq_of_mem_set hev1 with h | h
    · exact hI.shape ev1 h
    · rw [h]; exact hs
  · intro i hi
    rw [slot_setSlot e idx i ev hlen]
    by_cases hj : i = idx
    · simp [hj, ho]
    · simp only [hj, if_false]; exact hI.ok i hi

theorem inv_shape_slot (P : Params) (e : EventEmitter) (hI : Inv P e) (i : Nat)
    (hi : i < e.eventCount) : EventShape P (slot e i) :=
  hI.shape _ (slot_mem e i (by have := hI.length; have := hI.count; omega))

/-! ## The member functions, slot by slot -/

theorem on_eq_registerWith (P : Params) (e : EventEmitter) (name : CStr) (cb : Callback) :
    on_ P e name cb = registerWith P e name ⟨cb, false, true⟩ := rfl

theorem once_eq_registerWith (P : Params) (e : EventEmitter) (name : CStr) (cb : Callback) :
    once P e name cb = registerWith P e name ⟨cb, true, true⟩ := rfl

theorem createEvent_eq (P : Params) (e : EventEmitter) (name : CStr) :
    createEvent P e name
      = if e.eventCount ≥ P.MaxEvents then none else some (e.eventCount, afterCreate P e name) :=
  rfl

theorem addListener_eq (e : EventEmitter) (idx : Nat) (l : Listener) :
    addListener e idx l
      = if (slot e idx).listenerCount < e.maxListeners then
          setSlot e idx { slot e idx with
            listeners := (slot e idx).listeners.set (slot e idx).listenerCount l,
            listenerCount := (slot e idx).listenerCount + 1 }
        else e := rfl

theorem emit_none (P : Params) (e : EventEmitter) (name : CStr) (args : Args)
    (h : findEvent P e name = none) : emit P e name args = ⟨false, [], e⟩ := by
  simp [emit, h]

theorem emit_some (P : Params) (e : EventEmitter) (name : CStr) (args : Args) (idx : Nat)
    (h : findEvent P e name = some idx) :
    emit P e name args
      = ⟨true, (emitLoop args (slot e idx).listeners 0 (slot e idx).listenerCount 0 []).2.2,
          setSlot e idx (afterEmit args (slot e idx))⟩ := by
  simp [emit, h, slot, setSlot, afterEmit]

theorem removeListener_none (P : Params) (e : EventEmitter) (name : CStr) (cb : Callback)
    (h : findEvent P e name = none) : removeListener P e name cb = e := by
  simp [removeListener, h]

theorem removeListener_some (P : Params) (e : EventEmitter) (name : CStr) (cb : Callback)
    (idx : Nat) (h : findEvent P e name = some idx) :
    removeListener P e name cb = setSlot e idx (afterRemove cb (slot e idx)) := by
  simp [removeListener, h, slot, setSlot, afterRemove]

theorem removeAllListeners_none (P : Params) (e : EventEmitter) (name : CStr)
    (h : findEvent P e name = none) : removeAllListeners P e (some name) = e := by
  simp [removeAllListeners, h]

theorem removeAllListeners_some (P : Params) (e : EventEmitter) (name : CStr)
    (idx : Nat) (h : findEvent P e name = some idx) :
    removeAllListeners P e (some name)
      = setSlot e idx { slot e idx with listenerCount := 0, active := false } := by
  simp [removeAllListeners, h, slot, setSlot]

/-! ### One event -/

theorem storedOf_afterEmit (args : Args) (ev : Event) (h : ev.listenerCount ≤ ev.listeners.length) :
    storedOf (afterEmit args ev) = (storedOf ev).filter (fun l => l.active && !l.once) := by
  have hs := (emitLoop_spec args ev.listenerCount ev.listeners 0 0 [] (le_refl 0) (by omega)).2.1
  simpa [storedOf, afterEmit] using hs

theorem count_afterEmit (args : Args) (ev : Event) (h : ev.listenerCount ≤ ev.listeners.length) :
    (afterEmit args ev).listenerCount
      = ((storedOf ev).filter (fun l => l.active && !l.once)).length := by
  have hs := (emitLoop_spec args ev.listenerCount ev.listeners 0 0 [] (le_refl 0) (by omega)).1
  simpa [storedOf, afterEmit] using hs

theorem calls_emitLoop (args : Args) (ev : Event) (h : ev.listenerCount ≤ ev.listeners.length) :
    (emitLoop args ev.listeners 0 ev.listenerCount 0 []).2.2
      = ((storedOf ev).filter (fun l => l.active)).map (fun l => (l.callback, args)) := by
  have hs := (emitLoop_spec args ev.listenerCount ev.listeners 0 0 [] (le_refl 0) (by omega)).2.2
  simpa [storedOf] using hs

theorem storedOf_afterRemove (cb : Callback) (ev : Event)
    (h : ev.listenerCount ≤ ev.listeners.length) :
    storedOf (afterRemove cb ev) = (storedOf ev).filter (fun l => decide (l.callback ≠ cb)) := by
  have hs := (removeLoop_spec cb ev.listenerCount ev.listeners 0 0 (le_refl 0) (by omega)).2
  simpa [storedOf, afterRemove] using hs

theorem count_afterRemove (cb : Callback) (ev : Event)
    (h : ev.listenerCount ≤ ev.listeners.length) :
    (afterRemove cb ev).listenerCount
      = ((storedOf ev).filter (fun l => decide (l.callback ≠ cb))).length := by
  have hs := (removeLoop_spec cb ev.listenerCount ev.listeners 0 0 (le_refl 0) (by omega)).1
  simpa [storedOf, afterRemove] using hs

theorem filter_all_active (ls : List Listener) (h : ∀ l ∈ ls, l.active = true) :
    ls.filter (fun l => l.active) = ls := by
  rw [List.filter_eq_self]; exact h

theorem filter_active_not_once (ls : List Listener) (h : ∀ l ∈ ls, l.active = true) :
    ls.filter (fun l => l.active && !l.once) = ls.filter (fun l => !l.once) := by
  apply List.filter_congr
  intro l hl
  simp [h l hl]

theorem count_le_length (P : Params) (ev : Event) (hs : EventShape P ev) (ho : EventOk P ev) :
    ev.listenerCount ≤ ev.listeners.length := by
  rw [hs.1]; exact ho.1

theorem eventOk_afterEmit (P : Params) (args : Args) (ev : Event)
    (hs : EventShape P ev) (ho : EventOk P ev) :
    EventShape P (afterEmit args ev) ∧ EventOk P (afterEmit args ev) := by
  have hle := count_le_length P ev hs ho
  refine ⟨⟨?_, hs.2⟩, ?_, ?_, ?_, ho.2.2.2⟩
  · simp only [afterEmit]; rw [emitLoop_length]; exact hs.1
  · rw [count_afterEmit args ev hle]
    have h1 := List.length_filter_le (fun l : Listener => l.active && !l.once) (storedOf ev)
    have h2 : (storedOf ev).length ≤ ev.listenerCount := by
      simp [storedOf]
    have := ho.1
    omega
  · rw [storedOf_afterEmit args ev hle]
    intro l hl
    exact ho.2.1 l (List.mem_of_mem_filter hl)
  · intro hact
    by_cases h0 : (afterEmit args ev).listenerCount = 0
    · exact h0
    · have h0b : ¬ (emitLoop args ev.listeners 0 ev.listenerCount 0 []).2.1 = 0 := h0
      simp only [afterEmit, h0b, if_false] at hact
      have := ho.2.2.1 hact
      rw [count_afterEmit args ev hle, storedOf, this] at h0
      simp at h0

theorem eventOk_afterRemove (P : Params) (cb : Callback) (ev : Event)
    (hs : EventShape P ev) (ho : EventOk P ev) :
    EventShape P (afterRemove cb ev) ∧ EventOk P (afterRemove cb ev) := by
  have hle := count_le_length P ev hs ho
  refine ⟨⟨?_, hs.2⟩, ?_, ?_, ?_, ho.2.2.2⟩
  · simp only [afterRemove]; rw [removeLoop_length]; exact hs.1
  · rw [count_afterRemove cb ev hle]
    have h1 := List.length_filter_le (fun l : Listener => decide (l.callback ≠ cb)) (storedOf ev)
    have h2 : (storedOf ev).length ≤ ev.listenerCount := by
      simp [storedOf]
    have := ho.1
    omega
  · rw [storedOf_afterRemove cb ev hle]
    intro l hl
    exact ho.2.1 l (List.mem_of_mem_filter hl)
  · intro hact
    by_cases h0 : (afterRemove cb ev).listenerCount = 0
    · exact h0
    · have h0b : ¬ (removeLoop cb ev.listeners 0 ev.listenerCount 0).2 = 0 := h0
      simp only [afterRemove, h0b, if_false] at hact
      have := ho.2.2.1 hact
      rw [count_afterRemove cb ev hle, storedOf, this] at h0
      simp at h0

/-! ## The invariant -/

theorem inv_emit (P : Params) (e : EventEmitter) (name : CStr) (args : Args) (hI : Inv P e) :
    Inv P (emit P e name args).state := by
  cases hf : findEvent P e name with
  | none => rw [emit_none P e name args hf]; exact hI
  | some idx =>
    rw [emit_some P e name args idx hf]
    have hidx := ((findEvent_some P e name idx).mp hf).1
    have h := eventOk_afterEmit P args (slot e idx) (inv_shape_slot P e hI idx hidx) (hI.ok idx hidx)
    exact inv_setSlot P e idx _ hI hidx h.1 h.2

theorem inv_removeListener (P : Params) (e : EventEmitter) (name : CStr) (cb : Callback)
    (hI : Inv P e) : Inv P (removeListener P e name cb) := by
  cases hf : findEvent P e name with
  | none => rw [removeListener_none P e name cb hf]; exact hI
  | some idx =>
    rw [removeListener_some P e name cb idx hf]
    have hidx := ((findEvent_some P e name idx).mp hf).1
    have h := eventOk_afterRemove P cb (slot e idx) (inv_shape_slot P e hI idx hidx)
      (hI.ok idx hidx)
    exact inv_setSlot P e idx _ hI hidx h.1 h.2

theorem resetLoop_length (k : Nat) : ∀ (evs : List Event) (i : Nat),
    (resetLoop evs i k).length = evs.length := by
  induction k with
  | zero => intro evs i; simp [resetLoop]
  | succ k ih => intro evs i; simp [resetLoop, ih]

theorem resetLoop_shape (P : Params) (k : Nat) : ∀ (evs : List Event) (i : Nat),
    (∀ ev ∈ evs, EventShape P ev) → ∀ ev ∈ resetLoop evs i k, EventShape P ev := by
  induction k with
  | zero => intro evs i h; simpa [resetLoop] using h
  | succ k ih =>
    intro evs i h
    simp only [resetLoop]
    apply ih
    intro ev hev
    rcases List.mem_or_eq_of_mem_set hev with h1 | h1
    · exact h ev h1
    · by_cases hi : i < evs.length
      · have hm : evs.getD i default ∈ evs := by
          rw [List.getD_eq_getElem _ _ hi]; exact List.getElem_mem hi
        rw [h1]
        exact ⟨(h _ hm).1, (h _ hm).2⟩
      · rw [List.set_eq_of_length_le (by omega)] at hev
        exact h ev hev

theorem inv_removeAllListeners (P : Params) (e : EventEmitter) (name : Option CStr)
    (hI : Inv P e) : Inv P (removeAllListeners P e name) := by
  cases name with
  | none =>
    refine ⟨?_, ?_, ?_, hI.cap, ?_⟩
    · simp [removeAllListeners, resetLoop_length, hI.length]
    · simp only [removeAllListeners]
      exact resetLoop_shape P _ _ _ hI.shape
    · simp [removeAllListeners]
    · intro i hi
      simp [removeAllListeners] at hi
  | some nm =>
    cases hf : findEvent P e nm with
    | none => rw [removeAllListeners_none P e nm hf]; exact hI
    | some idx =>
      rw [removeAllListeners_some P e nm idx hf]
      have hidx := ((findEvent_some P e nm idx).mp hf).1
      have hs := inv_shape_slot P e hI idx hidx
      have ho := hI.ok idx hidx
      refine inv_setSlot P e idx _ hI hidx ⟨hs.1, hs.2⟩ ⟨?_, ?_, ?_, ho.2.2.2⟩
      · simp
      · simp [storedOf]
      · simp

theorem inv_setMaxListeners (P : Params) (e : EventEmitter) (n : Nat) (hI : Inv P e) :
    Inv P (setMaxListeners P e n) := by
  refine ⟨hI.length, hI.shape, hI.count, ?_, hI.ok⟩
  simp only [setMaxListeners]
  split_ifs <;> omega

theorem storedOf_append (ev : Event) (l : Listener) (h : ev.listenerCount < ev.listeners.length) :
    storedOf { ev with listeners := ev.listeners.set ev.listenerCount l,
                       listenerCount := ev.listenerCount + 1 }
      = storedOf ev ++ [l] := by
  simp only [storedOf]
  exact take_succ_set ev.listeners ev.listenerCount l h

theorem inv_addListener (P : Params) (e : EventEmitter) (idx : Nat) (l : Listener)
    (hI : Inv P e) (hidx : idx < e.eventCount) (hl : l.active = true)
    (ha : (slot e idx).active = true) :
    Inv P (addListener e idx l) := by
  rw [addListener_eq]
  by_cases hc : (slot e idx).listenerCount < e.maxListeners
  · simp only [hc, if_true]
    have hs := inv_shape_slot P e hI idx hidx
    have ho := hI.ok idx hidx
    have hcap := hI.cap
    refine inv_setSlot P e idx _ hI hidx ⟨?_, hs.2⟩ ⟨?_, ?_, ?_, ho.2.2.2⟩
    · simp [hs.1]
    · show (slot e idx).listenerCount + 1 ≤ P.MaxListeners
      omega
    · rw [storedOf_append (slot e idx) l (by rw [hs.1]; omega)]
      intro x hx
      rcases List.mem_append.mp hx with h | h
      · exact ho.2.1 x h
      · simp at h; rw [h]; exact hl
    · intro hact
      have hact2 : (slot e idx).active = false := hact
      rw [ha] at hact2; cases hact2
  · simp only [hc, if_false]; exact hI

theorem afterCreate_name_length (P : Params) (buf : List Nat) (name : CStr)
    (hbuf : buf.length = P.MaxEventNameLength) :
    ((strncpy buf name (P.MaxEventNameLength - 1)).set (P.MaxEventNameLength - 1) 0).length
      = P.MaxEventNameLength := by
  simp [strncpy, strncpyBytes_length, hbuf]

theorem slot_afterCreate (P : Params) (e : EventEmitter) (name : CStr) (j : Nat)
    (h : e.eventCount < e.events.length) :
    slot (afterCreate P e name) j
      = if j = e.eventCount then
          { slot e e.eventCount with
            name := (strncpy (slot e e.eventCount).name name (P.MaxEventNameLength - 1)).set
              (P.MaxEventNameLength - 1) 0,
            listenerCount := 0, active := true }
        else slot e j := by
  have := slot_setSlot e e.eventCount j
    { slot e e.eventCount with
      name := (strncpy (slot e e.eventCount).name name (P.MaxEventNameLength - 1)).set
        (P.MaxEventNameLength - 1) 0,
      listenerCount := 0, active := true } h
  simpa [slot, setSlot, afterCreate] using this

theorem inv_afterCreate (P : Params) (e : EventEmitter) (name : CStr) (hI : Inv P e)
    (hfull : e.eventCount < P.MaxEvents) : Inv P (afterCreate P e name) := by
  have hlen : e.eventCount < e.events.length := by rw [hI.length]; exact hfull
  have hs := hI.shape _ (slot_mem e e.eventCount hlen)
  refine ⟨?_, ?_, ?_, hI.cap, ?_⟩
  · simp [afterCreate, hI.length]
  · intro ev hev
    simp only [afterCreate] at hev
    rcases List.mem_or_eq_of_mem_set hev with h | h
    · exact hI.shape ev h
    · rw [h]
      exact ⟨hs.1, afterCreate_name_length P _ name hs.2⟩
  · show e.eventCount + 1 ≤ P.MaxEvents
    omega
  · intro i hi
    have hi2 : i < e.eventCount + 1 := hi
    rw [slot_afterCreate P e name i hlen]
    by_cases hj : i = e.eventCount
    · simp only [hj, if_true]
      refine ⟨by simp, by simp [storedOf], by simp, ?_⟩
      intro hN
      exact ⟨name, createEvent_name P _ name hN hs.2⟩
    · simp only [hj, if_false]
      exact hI.ok i (by omega)

theorem registerWith_found (P : Params) (e : EventEmitter) (name : CStr) (l : Listener)
    (idx : Nat) (h : findEvent P e name = some idx) :
    registerWith P e name l = addListener e idx l := by
  simp [registerWith, h]

theorem registerWith_created (P : Params) (e : EventEmitter) (name : CStr) (l : Listener)
    (h : findEvent P e name = none) (hfull : e.eventCount < P.MaxEvents) :
    registerWith P e name l = addListener (afterCreate P e name) e.eventCount l := by
  have : ¬ (e.eventCount ≥ P.MaxEvents) := by omega
  simp [registerWith, h, createEvent_eq, this]

theorem registerWith_full (P : Params) (e : EventEmitter) (name : CStr) (l : Listener)
    (h : findEvent P e name = none) (hfull : P.MaxEvents ≤ e.eventCount) :
    registerWith P e name l = e := by
  simp [registerWith, h, createEvent_eq, hfull]

theorem inv_registerWith (P : Params) (e : EventEmitter) (name : CStr) (l : Listener)
    (hI : Inv P e) (hl : l.active = true) : Inv P (registerWith P e name l) := by
  cases hf : findEvent P e name with
  | some idx =>
    rw [registerWith_found P e name l idx hf]
    have hm := (findEvent_some P e name idx).mp hf
    have ha : (slot e idx).active = true := by
      have := hm.2.1
      simp only [matchesAt, Bool.and_eq_true] at this
      exact this.1
    exact inv_addListener P e idx l hI hm.1 hl ha
  | none =>
    by_cases hfull : e.eventCount < P.MaxEvents
    · rw [registerWith_created P e name l hf hfull]
      have hlen : e.eventCount < e.events.length := by rw [hI.length]; exact hfull
      exact inv_addListener P _ _ l (inv_afterCreate P e name hI hfull)
        (by show e.eventCount < e.eventCount + 1; omega) hl
        (by rw [slot_afterCreate P e name _ hlen]; simp)
    · rw [registerWith_full P e name l hf (by omega)]; exact hI

theorem inv_step (P : Params) (e : EventEmitter) (op : Op) (hI : Inv P e) :
    Inv P (step P e op) := by
  cases op with
  | on_ name cb => exact inv_registerWith P e name _ hI rfl
  | once name cb => exact inv_registerWith P e name _ hI rfl
  | emit name args => exact inv_emit P e name args hI
  | removeListener name cb => exact inv_removeListener P e name cb hI
  | removeAllListeners name => exact inv_removeAllListeners P e name hI
  | setMaxListeners n => exact inv_setMaxListeners P e n hI

theorem inv_construct (P : Params) (mem : List Event) (h : WfMem P mem) :
    Inv P (construct P mem) := by
  refine ⟨h.1, h.2, Nat.zero_le _, le_refl _, ?_⟩
  intro i hi
  simp [construct] at hi

/-- Every reachable state satisfies the invariant. -/
theorem reachable_inv (P : Params) (e : EventEmitter) (h : Reachable P e) : Inv P e := by
  induction h with
  | construct mem hm => exact inv_construct P mem hm
  | step e op _ ih => exact inv_step P e op ih

theorem reachableShort_reachable (P : Params) (e : EventEmitter) (h : ReachableShort P e) :
    Reachable P e := by
  induction h with
  | construct mem hm => exact Reachable.construct mem hm
  | step e op _ _ ih => exact Reachable.step e op ih

theorem run_append (P : Params) (e : EventEmitter) (ops : List Op) (op : Op) :
    run P e (ops ++ [op]) = step P (run P e ops) op := by
  simp [run, List.foldl_append]

/-- Running calls from the constructor gives a reachable state. -/
theorem reachable_run (P : Params) (mem : List Event) (ops : List Op) (h : WfMem P mem) :
    Reachable P (run P (construct P mem) ops) := by
  induction ops using List.reverseRecOn with
  | nil => exact Reachable.construct mem h
  | append_singleton ops op ih => rw [run_append]; exact Reachable.step _ op ih

/-- Running calls with short registration names gives a short-reachable state. -/
theorem reachableShort_run (P : Params) (mem : List Event) (ops : List Op) (h : WfMem P mem)
    (hs : ∀ op ∈ ops, Op.shortName P op) :
    ReachableShort P (run P (construct P mem) ops) := by
  induction ops using List.reverseRecOn with
  | nil => exact ReachableShort.construct mem h
  | append_singleton ops op ih =>
    rw [run_append]
    exact ReachableShort.step _ op (ih (fun o ho => hs o (List.mem_append_left _ ho)))
      (hs op (by simp))

/-! ## Effects of the member functions on the event table -/

theorem matchesAt_active (P : Params) (e : EventEmitter) (name : CStr) (j : Nat)
    (h : matchesAt P e name j = true) : (slot e j).active = true := by
  simp only [matchesAt, Bool.and_eq_true] at h
  exact h.1

theorem findEvent_active (P : Params) (e : EventEmitter) (name : CStr) (idx : Nat)
    (h : findEvent P e name = some idx) : (slot e idx).active = true :=
  matchesAt_active P e name idx ((findEvent_some P e name idx).mp h).2.1

theorem findEvent_lt (P : Params) (e : EventEmitter) (name : CStr) (idx : Nat)
    (h : findEvent P e name = some idx) : idx < e.eventCount :=
  ((findEvent_some P e name idx).mp h).1

theorem inv_lt_length (P : Params) (e : EventEmitter) (hI : Inv P e) (i : Nat)
    (hi : i < e.eventCount) : i < e.events.length := by
  have := hI.length; have := hI.count; omega

/-- What `emit` does when `findEvent` succeeds. -/
theorem emit_found (P : Params) (e : EventEmitter) (name : CStr) (args : Args) (idx : Nat)
    (hI : Inv P e) (hf : findEvent P e name = some idx) :
    (emit P e name args).ret = true ∧
    (emit P e name args).calls = (stored e idx).map (fun l => (l.callback, args)) ∧
    (emit P e name args).state = setSlot e idx (afterEmit args (slot e idx)) ∧
    stored (emit P e name args).state idx = (stored e idx).filter (fun l => !l.once) := by
  have hidx := findEvent_lt P e name idx hf
  have hs := inv_shape_slot P e hI idx hidx
  have ho := hI.ok idx hidx
  have hle := count_le_length P _ hs ho
  rw [emit_some P e name args idx hf]
  refine ⟨rfl, ?_, rfl, ?_⟩
  · show (emitLoop args (slot e idx).listeners 0 (slot e idx).listenerCount 0 []).2.2 = _
    rw [calls_emitLoop args _ hle, filter_all_active _ ho.2.1]
    rfl
  · show storedOf (slot (setSlot e idx (afterEmit args (slot e idx))) idx) = _
    rw [slot_setSlot_self e idx _ (inv_lt_length P e hI idx hidx),
      storedOf_afterEmit args _ hle, filter_active_not_once _ ho.2.1]
    rfl

/-- What `removeListener` does when `findEvent` succeeds. -/
theorem removeListener_found (P : Params) (e : EventEmitter) (name : CStr) (cb : Callback)
    (idx : Nat) (hI : Inv P e) (hf : findEvent P e name = some idx) :
    stored (removeListener P e name cb) idx
      = (stored e idx).filter (fun l => decide (l.callback ≠ cb)) ∧
    (slot (removeListener P e name cb) idx).listenerCount
      = ((stored e idx).filter (fun l => decide (l.callback ≠ cb))).length ∧
    ((slot (removeListener P e name cb) idx).active = false
      ↔ (stored e idx).filter (fun l => decide (l.callback ≠ cb)) = []) := by
  have hidx := findEvent_lt P e name idx hf
  have hs := inv_shape_slot P e hI idx hidx
  have ho := hI.ok idx hidx
  have hle := count_le_length P _ hs ho
  have hact := findEvent_active P e name idx hf
  rw [removeListener_some P e name cb idx hf]
  have hslot := slot_setSlot_self e idx (afterRemove cb (slot e idx)) (inv_lt_length P e hI idx hidx)
  have hcount := count_afterRemove cb _ hle
  refine ⟨?_, ?_, ?_⟩
  · show storedOf (slot (setSlot e idx (afterRemove cb (slot e idx))) idx) = _
    rw [hslot, storedOf_afterRemove cb _ hle]; rfl
  · rw [hslot, hcount]; rfl
  · rw [hslot]
    have hlen0 : (stored e idx).filter (fun l => decide (l.callback ≠ cb)) = []
        ↔ (afterRemove cb (slot e idx)).listenerCount = 0 := by
      rw [hcount]; exact List.length_eq_zero.symm
    rw [hlen0]
    by_cases h0 : (afterRemove cb (slot e idx)).listenerCount = 0
    · have h0b : (removeLoop cb (slot e idx).listeners 0 (slot e idx).listenerCount 0).2 = 0 := h0
      simp [afterRemove, h0b]
    · have h0b : ¬ (removeLoop cb (slot e idx).listeners 0 (slot e idx).listenerCount 0).2 = 0 :=
        h0
      simp [afterRemove, h0b, hact]

/-! ## Dispatch, removal, and calls that change nothing -/

/-- C1: in a reachable state, when `findEvent` finds an active event for the
name, `emit` returns `true` and calls, once each and in slot order, exactly the
callbacks of the listeners stored in slots `0 .. listenerCount - 1` of that
event, each with the arguments given; nothing else is called. -/
theorem emit_calls_stored (P : Params) (e : EventEmitter) (name : CStr) (args : Args) (idx : Nat)
    (hr : Reachable P e) (hf : findEvent P e name = some idx) :
    (emit P e name args).ret = true ∧
    (emit P e name args).calls = (stored e idx).map (fun l => (l.callback, args)) := by
  have h := emit_found P e name args idx (reachable_inv P e hr) hf
  exact ⟨h.1, h.2.1⟩

/-- After `on("x", 1)` and `once("x", 2)`, `emit("x", 7)` calls 1 then 2. -/
theorem emit_calls_stored_witness :
    findEvent exParams (run exParams exFresh [.on_ nameX 1, .once nameX 2]) nameX = some 0 ∧
    (emit exParams (run exParams exFresh [.on_ nameX 1, .once nameX 2]) nameX [7]).ret = true ∧
    (emit exParams (run exParams exFresh [.on_ nameX 1, .once nameX 2]) nameX [7]).calls
      = [(1, [7]), (2, [7])] :=
  ⟨by decide,
   (emit_calls_stored exParams (run exParams exFresh [.on_ nameX 1, .once nameX 2]) nameX [7] 0
      (reachable_run exParams _ _ (by decide)) (by decide)).1,
   (emit_calls_stored exParams (run exParams exFresh [.on_ nameX 1, .once nameX 2]) nameX [7] 0
      (reachable_run exParams _ _ (by decide)) (by decide)).2.trans (by decide)⟩

/-- C5: in a reachable state, when `findEvent` finds an active event for the
name, `removeListener(name, cb)` leaves that event with its former listeners
minus every entry whose callback is `cb` (all registrations of `cb`), the
others in their former order; `listenerCount` is the number left, and the
event is marked inactive exactly when none is left. -/
theorem removeListener_filters (P : Params) (e : EventEmitter) (name : CStr) (cb : Callback)
    (idx : Nat) (hr : Reachable P e) (hf : findEvent P e name = some idx) :
    stored (removeListener P e name cb) idx
      = (stored e idx).filter (fun l => decide (l.callback ≠ cb)) ∧
    (slot (removeListener P e name cb) idx).listenerCount
      = ((stored e idx).filter (fun l => decide (l.callback ≠ cb))).length ∧
    ((slot (removeListener P e name cb) idx).active = false
      ↔ (stored e idx).filter (fun l => decide (l.callback ≠ cb)) = []) :=
  removeListener_found P e name cb idx (reachable_inv P e hr) hf

/-- After `on("x", 1)` and `on("x", 2)`, `removeListener("x", 1)` leaves listener 2 alone. -/
theorem removeListener_filters_witness :
    stored (removeListener exParams
        (run exParams exFresh [.on_ nameX 1, .on_ nameX 2]) nameX 1) 0
      = [⟨2, false, true⟩] ∧
    (slot (removeListener exParams
        (run exParams exFresh [.on_ nameX 1, .on_ nameX 2]) nameX 1) 0).listenerCount = 1 :=
  ⟨(removeListener_filters exParams (run exParams exFresh [.on_ nameX 1, .on_ nameX 2]) nameX 1 0
      (reachable_run exParams _ _ (by decide)) (by decide)).1.trans (by decide),
   (removeListener_filters exParams (run exParams exFresh [.on_ nameX 1, .on_ nameX 2]) nameX 1 0
      (reachable_run exParams _ _ (by decide)) (by decide)).2.1.trans (by decide)⟩

/-- C7: when `eventCount == MaxEvents` and `findEvent` finds no active event for
the name, `on` and `once` return the emitter unchanged, so `emit` behaves on
every name as it did before. -/
theorem register_noop_when_pool_full (P : Params) (e : EventEmitter) (name : CStr)
    (cb : Callback) (hfull : e.eventCount = P.MaxEvents) (hf : findEvent P e name = none) :
    on_ P e name cb = e ∧ once P e name cb = e ∧
    (∀ n a, emit P (on_ P e name cb) n a = emit P e n a) ∧
    (∀ n a, emit P (once P e name cb) n a = emit P e n a) := by
  have h1 : on_ P e name cb = e := by
    rw [on_eq_registerWith]; exact registerWith_full P e name _ hf (by omega)
  have h2 : once P e name cb = e := by
    rw [once_eq_registerWith]; exact registerWith_full P e name _ hf (by omega)
  refine ⟨h1, h2, ?_, ?_⟩
  · intro n a; rw [h1]
  · intro n a; rw [h2]

/-- With `MaxEvents = 2` and events `"x"` and `"y"`, `on("abc", 3)` changes nothing. -/
theorem register_noop_when_pool_full_witness :
    on_ exParams (run exParams exFresh [.on_ nameX 1, .on_ nameY 2]) nameAbc 3
      = run exParams exFresh [.on_ nameX 1, .on_ nameY 2] :=
  (register_noop_when_pool_full exParams (run exParams exFresh [.on_ nameX 1, .on_ nameY 2])
    nameAbc 3 (by decide) (by decide)).1

/-- C10: when `findEvent` finds no active event for the name,
`removeListener(name, cb)` and `removeAllListeners(name)` leave the emitter
unchanged. -/
theorem remove_unknown_noop (P : Params) (e : EventEmitter) (name : CStr) (cb : Callback)
    (hf : findEvent P e name = none) :
    removeListener P e name cb = e ∧ removeAllListeners P e (some name) = e :=
  ⟨removeListener_none P e name cb hf, removeAllListeners_none P e name hf⟩

/-- With only `"x"` registered, removals on `"y"` change nothing. -/
theorem remove_unknown_noop_witness :
    removeListener exParams (run exParams exFresh [.on_ nameX 1]) nameY 1
      = run exParams exFresh [.on_ nameX 1] ∧
    removeAllListeners exParams (run exParams exFresh [.on_ nameX 1]) (some nameY)
      = run exParams exFresh [.on_ nameX 1] :=
  remove_unknown_noop exParams (run exParams exFresh [.on_ nameX 1]) nameY 1 (by decide)

/-! ## Frames -/

theorem stored_length (P : Params) (e : EventEmitter) (hI : Inv P e) (i : Nat)
    (hi : i < e.eventCount) : (stored e i).length = (slot e i).listenerCount := by
  have hle := count_le_length P _ (inv_shape_slot P e hI i hi) (hI.ok i hi)
  simp only [stored, storedOf, List.length_take]
  omega

theorem findEvent_congr (P : Params) (e e1 : EventEmitter) (name : CStr)
    (hc : e1.eventCount = e.eventCount)
    (h : ∀ j, j < e.eventCount → matchesAt P e1 name j = matchesAt P e name j) :
    findEvent P e1 name = findEvent P e name := by
  cases hf : findEvent P e name with
  | none =>
    rw [findEvent_none] at hf ⊢
    intro j hj
    rw [hc] at hj
    rw [h j hj]; exact hf j hj
  | some idx =>
    rw [findEvent_some] at hf ⊢
    obtain ⟨h1, h2, h3⟩ := hf
    refine ⟨by omega, by rw [h idx h1]; exact h2, fun j hj => ?_⟩
    rw [h j (by omega)]; exact h3 j hj

theorem frame_refl (e : EventEmitter) : Frame e e := ⟨rfl, fun _ => ⟨rfl, id⟩⟩

theorem frame_setSlot (e : EventEmitter) (idx : Nat) (ev : Event)
    (hn : ev.name = (slot e idx).name) (ha : ev.active = true → (slot e idx).active = true) :
    Frame e (setSlot e idx ev) := by
  refine ⟨rfl, fun j => ?_⟩
  by_cases hj : j = idx
  · by_cases hlen : idx < e.events.length
    · rw [hj, slot_setSlot_self e idx ev hlen]; exact ⟨hn, ha⟩
    · have : setSlot e idx ev = e := by
        unfold setSlot
        rw [List.set_eq_of_length_le (by omega)]
      rw [this]; exact ⟨rfl, id⟩
  · rw [slot_setSlot_ne e idx j ev hj]; exact ⟨rfl, id⟩

theorem frame_emit (P : Params) (e : EventEmitter) (name : CStr) (args : Args) :
    Frame e (emit P e name args).state := by
  cases hf : findEvent P e name with
  | none => rw [emit_none P e name args hf]; exact frame_refl e
  | some idx =>
    rw [emit_some P e name args idx hf]
    apply frame_setSlot
    · rfl
    · intro h
      simp only [afterEmit] at h
      split_ifs at h
      exact h

theorem frame_removeListener (P : Params) (e : EventEmitter) (name : CStr) (cb : Callback) :
    Frame e (removeListener P e name cb) := by
  cases hf : findEvent P e name with
  | none => rw [removeListener_none P e name cb hf]; exact frame_refl e
  | some idx =>
    rw [removeListener_some P e name cb idx hf]
    apply frame_setSlot
    · rfl
    · intro h
      simp only [afterRemove] at h
      split_ifs at h
      exact h

theorem frame_removeAllListeners (P : Params) (e : EventEmitter) (name : CStr) :
    Frame e (removeAllListeners P e (some name)) := by
  cases hf : findEvent P e name with
  | none => rw [removeAllListeners_none P e name hf]; exact frame_refl e
  | some idx =>
    rw [removeAllListeners_some P e name idx hf]
    apply frame_setSlot
    · rfl
    · intro h; cases h

theorem frame_addListener (e : EventEmitter) (idx : Nat) (l : Listener) :
    Frame e (addListener e idx l) := by
  rw [addListener_eq]
  split_ifs
  · apply frame_setSlot
    · rfl
    · exact id
  · exact frame_refl e

theorem frame_setMaxListeners (P : Params) (e : EventEmitter) (n : Nat) :
    Frame e (setMaxListeners P e n) := ⟨rfl, fun _ => ⟨rfl, id⟩⟩

/-! ## Registration -/

/-- Effect of the shared block of `on` and `once` on slot `idx`. -/
theorem addListener_spec (P : Params) (e : EventEmitter) (idx : Nat) (l : Listener)
    (hI : Inv P e) (hidx : idx < e.eventCount) :
    (addListener e idx l).eventCount = e.eventCount ∧
    (addListener e idx l).maxListeners = e.maxListeners ∧
    (∀ j, j ≠ idx → slot (addListener e idx l) j = slot e j) ∧
    (slot (addListener e idx l) idx).name = (slot e idx).name ∧
    (slot (addListener e idx l) idx).active = (slot e idx).active ∧
    stored (addListener e idx l) idx
      = (if (slot e idx).listenerCount < e.maxListeners then stored e idx ++ [l]
         else stored e idx) := by
  have hlen := inv_lt_length P e hI idx hidx
  have hs := inv_shape_slot P e hI idx hidx
  have hcap := hI.cap
  rw [addListener_eq]
  by_cases hc : (slot e idx).listenerCount < e.maxListeners
  · simp only [hc, if_true]
    refine ⟨rfl, rfl, fun j hj => slot_setSlot_ne e idx j _ hj, ?_, ?_, ?_⟩
    · rw [slot_setSlot_self e idx _ hlen]
    · rw [slot_setSlot_self e idx _ hlen]
    · show storedOf (slot (setSlot e idx _) idx) = _
      rw [slot_setSlot_self e idx _ hlen]
      exact storedOf_append (slot e idx) l (by rw [hs.1]; omega)
  · simp [hc]

theorem matchesAt_eq (P : Params) (e e1 : EventEmitter) (name : CStr) (j : Nat)
    (hn : (slot e1 j).name = (slot e j).name) (ha : (slot e1 j).active = (slot e j).active) :
    matchesAt P e1 name j = matchesAt P e name j := by
  simp only [matchesAt, hn, ha]

theorem findEvent_addListener (P : Params) (e : EventEmitter) (idx : Nat) (l : Listener)
    (hI : Inv P e) (hidx : idx < e.eventCount) (name : CStr) :
    findEvent P (addListener e idx l) name = findEvent P e name := by
  have h := addListener_spec P e idx l hI hidx
  apply findEvent_congr P e _ name h.1
  intro j _
  by_cases hj : j = idx
  · rw [hj]; exact matchesAt_eq P e _ name idx h.2.2.2.1 h.2.2.2.2.1
  · rw [matchesAt, h.2.2.1 j hj]; rfl

theorem cstr_take_of_short (P : Params) (name : CStr) (h : strlen name < P.MaxEventNameLength) :
    (cstr name).take (P.MaxEventNameLength - 1) = cstr name := by
  apply List.take_of_length_le
  unfold strlen at h
  omega

/-- A stored short name compares equal to itself. -/
theorem strncmpEq_self (P : Params) (name : CStr) (h : strlen name < P.MaxEventNameLength) :
    strncmpEq (storedName P name) name P.MaxEventNameLength = true := by
  rw [strncmpEq_storedName P name name (by omega), cstr_take_of_short P name h]

/-- Effect of `createEvent` when the pool is not full. -/
theorem afterCreate_spec (P : Params) (e : EventEmitter) (name : CStr)
    (hI : Inv P e) (hfull : e.eventCount < P.MaxEvents) :
    (afterCreate P e name).eventCount = e.eventCount + 1 ∧
    (afterCreate P e name).maxListeners = e.maxListeners ∧
    (∀ j, j ≠ e.eventCount → slot (afterCreate P e name) j = slot e j) ∧
    (0 < P.MaxEventNameLength → (slot (afterCreate P e name) e.eventCount).name = storedName P name) ∧
    (slot (afterCreate P e name) e.eventCount).active = true ∧
    (slot (afterCreate P e name) e.eventCount).listenerCount = 0 ∧
    stored (afterCreate P e name) e.eventCount = [] := by
  have hlen : e.eventCount < e.events.length := by rw [hI.length]; exact hfull
  have hs := hI.shape _ (slot_mem e e.eventCount hlen)
  have hslot := slot_afterCreate P e name e.eventCount hlen
  simp only [if_true] at hslot
  refine ⟨rfl, rfl, ?_, ?_, ?_, ?_, ?_⟩
  · intro j hj
    rw [slot_afterCreate P e name j hlen]; simp [hj]
  · intro hN
    rw [hslot]
    exact createEvent_name P _ name hN hs.2
  · rw [hslot]
  · rw [hslot]
  · simp only [stored, storedOf]
    rw [hslot]; simp

theorem findEvent_afterCreate (P : Params) (e : EventEmitter) (name : CStr)
    (hI : Inv P e) (hfull : e.eventCount < P.MaxEvents) (hf : findEvent P e name = none)
    (hshort : strlen name < P.MaxEventNameLength) :
    findEvent P (afterCreate P e name) name = some e.eventCount := by
  have h := afterCreate_spec P e name hI hfull
  rw [findEvent_some]
  refine ⟨by rw [h.1]; omega, ?_, ?_⟩
  · simp only [matchesAt, Bool.and_eq_true]
    refine ⟨h.2.2.2.2.1, ?_⟩
    rw [h.2.2.2.1 (by omega)]
    exact strncmpEq_self P name hshort
  · intro j hj
    rw [findEvent_none] at hf
    rw [matchesAt, h.2.2.1 j (by omega)]
    exact hf j hj

theorem register_eq (P : Params) (name : CStr) (e : EventEmitter) (r : Callback × Bool) :
    register P name e r = registerWith P e name (listenerOfReg r) := by
  obtain ⟨cb, b⟩ := r
  cases b
  · simp [register, listenerOfReg, on_eq_registerWith]
  · simp [register, listenerOfReg, once_eq_registerWith]

/-- Registration when `findEvent` finds the event. -/
theorem registerWith_found_spec (P : Params) (e : EventEmitter) (name : CStr) (l : Listener)
    (idx : Nat) (hI : Inv P e) (hf : findEvent P e name = some idx) :
    (registerWith P e name l).eventCount = e.eventCount ∧
    (registerWith P e name l).maxListeners = e.maxListeners ∧
    (∀ j, j ≠ idx → slot (registerWith P e name l) j = slot e j) ∧
    findEvent P (registerWith P e name l) name = some idx ∧
    stored (registerWith P e name l) idx
      = (if (slot e idx).listenerCount < e.maxListeners then stored e idx ++ [l]
         else stored e idx) := by
  have hidx := findEvent_lt P e name idx hf
  have h := addListener_spec P e idx l hI hidx
  rw [registerWith_found P e name l idx hf]
  exact ⟨h.1, h.2.1, h.2.2.1, by rw [findEvent_addListener P e idx l hI hidx, hf], h.2.2.2.2.2⟩

/-- Registration when `findEvent` fails and the pool is not full. -/
theorem registerWith_created_spec (P : Params) (e : EventEmitter) (name : CStr) (l : Listener)
    (hI : Inv P e) (hf : findEvent P e name = none) (hfull : e.eventCount < P.MaxEvents)
    (hshort : strlen name < P.MaxEventNameLength) :
    (registerWith P e name l).eventCount = e.eventCount + 1 ∧
    (registerWith P e name l).maxListeners = e.maxListeners ∧
    (∀ j, j ≠ e.eventCount → slot (registerWith P e name l) j = slot e j) ∧
    findEvent P (registerWith P e name l) name = some e.eventCount ∧
    stored (registerWith P e name l) e.eventCount
      = (if 0 < e.maxListeners then [l] else []) := by
  have hc := afterCreate_spec P e name hI hfull
  have hI1 := inv_afterCreate P e name hI hfull
  have hidx : e.eventCount < (afterCreate P e name).eventCount := by rw [hc.1]; omega
  have h := addListener_spec P (afterCreate P e name) e.eventCount l hI1 hidx
  rw [registerWith_created P e name l hf hfull]
  refine ⟨by rw [h.1, hc.1], by rw [h.2.1, hc.2.1], ?_, ?_, ?_⟩
  · intro j hj
    rw [h.2.2.1 j hj, hc.2.2.1 j hj]
  · rw [findEvent_addListener P _ _ l hI1 hidx]
    exact findEvent_afterCreate P e name hI hfull hf hshort
  · rw [h.2.2.2.2.2, hc.2.2.2.2.2.1, hc.2.2.2.2.2.2, hc.2.1]
    simp

/-! ## `removeAllListeners()` -/

theorem findEvent_of_eventCount_zero (P : Params) (e : EventEmitter) (name : CStr)
    (h : e.eventCount = 0) : findEvent P e name = none := by
  rw [findEvent_none]
  intro j hj
  omega

/-- C9: after `removeAllListeners()` in a reachable state, `eventCount` is 0 and
`emit` returns `false` for every name; a following `on(name, cb)` with a name
shorter than `MaxEventNameLength` (and `MaxEvents >= 1`, `maxListeners >= 1`)
gives an event whose listeners are exactly `[cb]`, so that `emit(name)` returns
`true` and calls `cb` and nothing registered before the reset. -/
theorem reset_forgets_listeners (P : Params) (e : EventEmitter) (hr : Reachable P e) :
    (removeAllListeners P e none).eventCount = 0 ∧
    (∀ name args, (emit P (removeAllListeners P e none) name args).ret = false ∧
      (emit P (removeAllListeners P e none) name args).calls = []) ∧
    (∀ name cb args, strlen name < P.MaxEventNameLength → 1 ≤ P.MaxEvents →
      1 ≤ (removeAllListeners P e none).maxListeners →
      ∃ idx, findEvent P (on_ P (removeAllListeners P e none) name cb) name = some idx ∧
        stored (on_ P (removeAllListeners P e none) name cb) idx = [⟨cb, false, true⟩] ∧
        (emit P (on_ P (removeAllListeners P e none) name cb) name args).ret = true ∧
        (emit P (on_ P (removeAllListeners P e none) name cb) name args).calls = [(cb, args)]) := by
  have hI := inv_removeAllListeners P e none (reachable_inv P e hr)
  have h0 : (removeAllListeners P e none).eventCount = 0 := rfl
  refine ⟨h0, ?_, ?_⟩
  · intro name args
    rw [emit_none P _ name args (findEvent_of_eventCount_zero P _ name h0)]
    exact ⟨rfl, rfl⟩
  · intro name cb args hshort hE hL
    have hf := findEvent_of_eventCount_zero P _ name h0
    have h := registerWith_created_spec P _ name ⟨cb, false, true⟩ hI hf (by rw [h0]; omega) hshort
    rw [← on_eq_registerWith] at h
    have hI1 : Inv P (on_ P (removeAllListeners P e none) name cb) := by
      rw [on_eq_registerWith]; exact inv_registerWith P _ name _ hI rfl
    have hst : stored (on_ P (removeAllListeners P e none) name cb)
        (removeAllListeners P e none).eventCount = [⟨cb, false, true⟩] := by
      rw [h.2.2.2.2]; simp; omega
    have hem := emit_found P _ name args _ hI1 h.2.2.2.1
    refine ⟨_, h.2.2.2.1, hst, hem.1, ?_⟩
    rw [hem.2.1, hst]; rfl

/-- After registrations on `"x"` and `"y"` and a reset, `on("x", 3)` leaves listener 3 alone. -/
theorem reset_forgets_listeners_witness :
    (removeAllListeners exParams (run exParams exFresh [.on_ nameX 1, .once nameY 2]) none).eventCount
      = 0 ∧
    (emit exParams (removeAllListeners exParams
        (run exParams exFresh [.on_ nameX 1, .once nameY 2]) none) nameX [7]).ret = false ∧
    ∃ idx, findEvent exParams (on_ exParams (removeAllListeners exParams
          (run exParams exFresh [.on_ nameX 1, .once nameY 2]) none) nameX 3) nameX = some idx ∧
      stored (on_ exParams (removeAllListeners exParams
          (run exParams exFresh [.on_ nameX 1, .once nameY 2]) none) nameX 3) idx
        = [⟨3, false, true⟩] ∧
      (emit exParams (on_ exParams (removeAllListeners exParams
          (run exParams exFresh [.on_ nameX 1, .once nameY 2]) none) nameX 3) nameX [7]).ret
        = true ∧
      (emit exParams (on_ exParams (removeAllListeners exParams
          (run exParams exFresh [.on_ nameX 1, .once nameY 2]) none) nameX 3) nameX [7]).calls
        = [(3, [7])] :=
  ⟨(reset_forgets_listeners exParams (run exParams exFresh [.on_ nameX 1, .once nameY 2])
      (reachable_run exParams _ _ (by decide))).1,
   ((reset_forgets_listeners exParams (run exParams exFresh [.on_ nameX 1, .once nameY 2])
      (reachable_run exParams _ _ (by decide))).2.1 nameX [7]).1,
   (reset_forgets_listeners exParams (run exParams exFresh [.on_ nameX 1, .once nameY 2])
      (reachable_run exParams _ _ (by decide))).2.2 nameX 3 [7] (by decide) (by decide)
      (by decide)⟩

/-! ## Registrations beyond the cap -/

theorem inv_register (P : Params) (name : CStr) (e : EventEmitter) (r : Callback × Bool)
    (hI : Inv P e) : Inv P (register P name e r) := by
  rw [register_eq]; exact inv_registerWith P e name _ hI rfl

theorem take_append_singleton {α : Type} (ls : List α) (r : α) (m : Nat) :
    (ls ++ [r]).take m = if ls.length < m then ls.take m ++ [r] else ls.take m := by
  rw [List.take_append_eq_append_take]
  by_cases h : ls.length < m
  · have : m - ls.length = (m - ls.length - 1) + 1 := by omega
    rw [if_pos h, this]; simp
  · have : m - ls.length = 0 := by omega
    rw [if_neg h, this]; simp

/-- State of a fresh emitter with cap `m` after the registrations `regs` on one
short name. -/
theorem registrations_state (P : Params) (name : CStr) (e0 : EventEmitter)
    (hI0 : Inv P e0) (h0 : e0.eventCount = 0) (hE : 1 ≤ P.MaxEvents)
    (hshort : strlen name < P.MaxEventNameLength) (regs : List (Callback × Bool)) :
    Inv P (regs.foldl (register P name) e0) ∧
    (regs.foldl (register P name) e0).maxListeners = e0.maxListeners ∧
    ((regs = [] ∧ (regs.foldl (register P name) e0).eventCount = 0) ∨
     (findEvent P (regs.foldl (register P name) e0) name = some 0 ∧
      stored (regs.foldl (register P name) e0) 0
        = (regs.take e0.maxListeners).map listenerOfReg)) := by
  induction regs using List.reverseRecOn with
  | nil => exact ⟨hI0, rfl, Or.inl ⟨rfl, h0⟩⟩
  | append_singleton regs r ih =>
    obtain ⟨hI, hcap, hst⟩ := ih
    rw [List.foldl_append, List.foldl_cons, List.foldl_nil]
    refine ⟨inv_register P name _ r hI, ?_, Or.inr ?_⟩
    · rw [register_eq]
      rcases hst with ⟨_, hc⟩ | ⟨hf, _⟩
      · have hf := findEvent_of_eventCount_zero P _ name hc
        rw [(registerWith_created_spec P _ name _ hI hf (by omega) hshort).2.1, hcap]
      · rw [(registerWith_found_spec P _ name _ 0 hI hf).2.1, hcap]
    · rw [register_eq]
      rcases hst with ⟨hnil, hc⟩ | ⟨hf, hs⟩
      · have hf := findEvent_of_eventCount_zero P _ name hc
        have h := registerWith_created_spec P _ name (listenerOfReg r) hI hf (by omega) hshort
        rw [hc] at h
        refine ⟨h.2.2.2.1, ?_⟩
        rw [h.2.2.2.2, hcap, hnil]
        by_cases hm : 0 < e0.maxListeners
        · have : e0.maxListeners = (e0.maxListeners - 1) + 1 := by omega
          rw [if_pos hm, this]; simp
        · have : e0.maxListeners = 0 := by omega
          rw [if_neg hm, this]; simp
      · have h := registerWith_found_spec P _ name (listenerOfReg r) 0 hI hf
        refine ⟨h.2.2.2.1, ?_⟩
        have hlen := stored_length P _ hI 0 (findEvent_lt P _ name 0 hf)
        rw [h.2.2.2.2, ← hlen, hs, hcap, take_append_singleton, List.length_map, List.length_take]
        by_cases hm : regs.length < e0.maxListeners
        · have : min e0.maxListeners regs.length < e0.maxListeners := by omega
          rw [if_pos this, if_pos hm]; simp
        · have : ¬ min e0.maxListeners regs.length < e0.maxListeners := by omega
          rw [if_neg this, if_neg hm]

/-- C6: on a freshly constructed emitter (`MaxEvents >= 1`) whose cap was set to
`m = getMaxListeners()`, after registering callbacks `c1 .. ck` with `on`/`once`
on one name shorter than `MaxEventNameLength`, `emit(name)` calls exactly
`c1 .. c_min(k,m)`, in that order: the registrations beyond the first `m` were
dropped. -/
theorem registrations_beyond_cap_dropped (P : Params) (mem : List Event) (n : Nat) (name : CStr)
    (regs : List (Callback × Bool)) (args : Args)
    (hm : WfMem P mem) (hE : 1 ≤ P.MaxEvents) (hshort : strlen name < P.MaxEventNameLength) :
    (emit P (regs.foldl (register P name) (setMaxListeners P (construct P mem) n)) name args).calls
      = (regs.take (getMaxListeners (setMaxListeners P (construct P mem) n))).map
          (fun r => (r.1, args)) := by
  have hI0 : Inv P (setMaxListeners P (construct P mem) n) :=
    inv_setMaxListeners P _ n (inv_construct P mem hm)
  obtain ⟨hI, _, hst⟩ := registrations_state P name _ hI0 rfl hE hshort regs
  rcases hst with ⟨hnil, hc⟩ | ⟨hf, hs⟩
  · rw [emit_none P _ name args (findEvent_of_eventCount_zero P _ name hc), hnil]
    simp
  · rw [(emit_found P _ name args 0 hI hf).2.1, hs, List.map_map]
    rfl

/-- With cap 2, of the registrations 1, 2, 3 on `"x"` only 1 and 2 are called. -/
theorem registrations_beyond_cap_dropped_witness :
    (emit exParams ([(1, false), (2, true), (3, false)].foldl (register exParams nameX)
        (setMaxListeners exParams (construct exParams (zeroMem exParams)) 2)) nameX [7]).calls
      = [(1, [7]), (2, [7])] :=
  (registrations_beyond_cap_dropped exParams (zeroMem exParams) 2 nameX
    [(1, false), (2, true), (3, false)] [7] (by decide) (by decide) (by decide)).trans (by decide)

/-! ## Over-long names -/

/-- C8: with the default template arguments, `on(name, cb)` on a fresh emitter
with a 16-character name stores the listener under the name cut to 15
characters; `emit` with the same 16-character name then finds no event, returns
`false` and calls nothing, while `emit` with the 15-character prefix calls `cb`. -/
theorem on_emit_long_name :
    stored (on_ defaultParams (construct defaultParams (zeroMem defaultParams)) name16 1) 0
      = [⟨1, false, true⟩] ∧
    findEvent defaultParams
      (on_ defaultParams (construct defaultParams (zeroMem defaultParams)) name16 1) name16
      = none ∧
    (emit defaultParams
      (on_ defaultParams (construct defaultParams (zeroMem defaultParams)) name16 1) name16 [7]).ret
      = false ∧
    (emit defaultParams
      (on_ defaultParams (construct defaultParams (zeroMem defaultParams)) name16 1) name16 [7]).calls
      = [] ∧
    (emit defaultParams
      (on_ defaultParams (construct defaultParams (zeroMem defaultParams)) name16 1) name15 [7]).calls
      = [(1, [7])] := by
  decide

/-! ## Names never registered -/

theorem shortInv_frame (P : Params) (e e1 : EventEmitter) (hF : Frame e e1)
    (h : ShortInv P e) : ShortInv P e1 := by
  refine ⟨?_, fun h0 => h.2 (by rw [← hF.1]; exact h0)⟩
  intro i j hi hj hai haj hn
  rw [hF.1] at hi hj
  rw [(hF.2 i).1, (hF.2 j).1] at hn
  exact h.1 i j hi hj ((hF.2 i).2 hai) ((hF.2 j).2 haj) hn

theorem shortInv_afterCreate (P : Params) (e : EventEmitter) (name : CStr)
    (hI : Inv P e) (hS : ShortInv P e) (hf : findEvent P e name = none)
    (hfull : e.eventCount < P.MaxEvents) (hshort : strlen name < P.MaxEventNameLength) :
    ShortInv P (afterCreate P e name) := by
  have hc := afterCreate_spec P e name hI hfull
  have hN : 0 < P.MaxEventNameLength := by omega
  rw [findEvent_none] at hf
  have key : ∀ j, j < e.eventCount → (slot e j).active = true →
      (slot e j).name = storedName P name → False := by
    intro j hj ha hn
    have := hf j hj
    simp only [matchesAt, ha, hn, strncmpEq_self P name hshort, Bool.and_self] at this
    cases this
  refine ⟨?_, fun _ => hN⟩
  intro i j hi hj hai haj hn
  rw [hc.1] at hi hj
  by_cases hie : i = e.eventCount
  · by_cases hje : j = e.eventCount
    · omega
    · exfalso
      rw [hie, hc.2.2.2.1 hN, hc.2.2.1 j hje] at hn
      rw [hc.2.2.1 j hje] at haj
      exact key j (by omega) haj hn.symm
  · by_cases hje : j = e.eventCount
    · exfalso
      rw [hje, hc.2.2.2.1 hN, hc.2.2.1 i hie] at hn
      rw [hc.2.2.1 i hie] at hai
      exact key i (by omega) hai hn
    · rw [hc.2.2.1 i hie, hc.2.2.1 j hje] at hn
      rw [hc.2.2.1 i hie] at hai
      rw [hc.2.2.1 j hje] at haj
      exact hS.1 i j (by omega) (by omega) hai haj hn

theorem shortInv_registerWith (P : Params) (e : EventEmitter) (name : CStr) (l : Listener)
    (hI : Inv P e) (hS : ShortInv P e) (hshort : strlen name < P.MaxEventNameLength) :
    ShortInv P (registerWith P e name l) := by
  cases hf : findEvent P e name with
  | some idx =>
    rw [registerWith_found P e name l idx hf]
    exact shortInv_frame P e _ (frame_addListener e idx l) hS
  | none =>
    by_cases hfull : e.eventCount < P.MaxEvents
    · rw [registerWith_created P e name l hf hfull]
      exact shortInv_frame P _ _ (frame_addListener _ _ l)
        (shortInv_afterCreate P e name hI hS hf hfull hshort)
    · rw [registerWith_full P e name l hf (by omega)]
      exact hS

theorem shortInv_step (P : Params) (e : EventEmitter) (op : Op) (hI : Inv P e)
    (hS : ShortInv P e) (hop : Op.shortName P op) : ShortInv P (step P e op) := by
  cases op with
  | on_ name cb => exact shortInv_registerWith P e name _ hI hS hop
  | once name cb => exact shortInv_registerWith P e name _ hI hS hop
  | emit name args => exact shortInv_frame P e _ (frame_emit P e name args) hS
  | removeListener name cb => exact shortInv_frame P e _ (frame_removeListener P e name cb) hS
  | removeAllListeners name =>
    cases name with
    | none =>
      refine ⟨?_, ?_⟩
      · intro i j hi
        simp [step, removeAllListeners] at hi
      · intro h0
        simp [step, removeAllListeners] at h0
    | some nm => exact shortInv_frame P e _ (frame_removeAllListeners P e nm) hS
  | setMaxListeners n => exact shortInv_frame P e _ (frame_setMaxListeners P e n) hS

/-- With short registration names, no two active events share a name. -/
theorem reachableShort_shortInv (P : Params) (e : EventEmitter) (h : ReachableShort P e) :
    ShortInv P e := by
  induction h with
  | construct mem hm =>
    refine ⟨?_, ?_⟩
    · intro i j hi
      simp [construct] at hi
    · intro h0
      simp [construct] at h0
  | step e op hr hop ih =>
    exact shortInv_step P e op (reachable_inv P e (reachableShort_reachable P e hr)) ih hop

/-- Once the event `findEvent` found for a name is inactive, and names are
unique, `findEvent` finds nothing for that name. -/
theorem findEvent_none_of_deactivated (P : Params) (e e1 : EventEmitter) (name : CStr)
    (idx : Nat) (hI : Inv P e) (hS : ShortInv P e) (hf : findEvent P e name = some idx)
    (hc : e1.eventCount = e.eventCount) (hother : ∀ j, j ≠ idx → slot e1 j = slot e j)
    (hoff : (slot e1 idx).active = false) : findEvent P e1 name = none := by
  have hfs := (findEvent_some P e name idx).mp hf
  have hidx := hfs.1
  have hN : 0 < P.MaxEventNameLength := hS.2 (by omega)
  rw [findEvent_none]
  intro j hj
  rw [hc] at hj
  by_cases hji : j = idx
  · rw [hji]; simp [matchesAt, hoff]
  · cases hm : matchesAt P e1 name j with
    | false => rfl
    | true =>
      exfalso
      rw [matchesAt, hother j hji] at hm
      have hm1 := hfs.2.1
      simp only [matchesAt, Bool.and_eq_true] at hm hm1
      obtain ⟨nj, hnj⟩ := (hI.ok j hj).2.2.2 hN
      obtain ⟨ni, hni⟩ := (hI.ok idx hidx).2.2.2 hN
      have e1 : (slot e j).name = storedName P name := by
        rw [hnj]; apply storedName_eq_of_match P nj name hN; rw [← hnj]; exact hm.2
      have e2 : (slot e idx).name = storedName P name := by
        rw [hni]; apply storedName_eq_of_match P ni name hN; rw [← hni]; exact hm1.2
      exact hji (hS.1 j idx hj hidx hm.1 hm1.1 (by rw [e1, e2]))

theorem findEvent_none_setSlot (P : Params) (e : EventEmitter) (name : CStr) (idx : Nat)
    (ev : Event) (hI : Inv P e) (hS : ShortInv P e) (hf : findEvent P e name = some idx)
    (hoff : ev.active = false) : findEvent P (setSlot e idx ev) name = none := by
  have hlen := inv_lt_length P e hI idx (findEvent_lt P e name idx hf)
  exact findEvent_none_of_deactivated P e (setSlot e idx ev) name idx hI hS hf rfl
    (fun j hj => slot_setSlot_ne e idx j ev hj) (by rw [slot_setSlot_self e idx ev hlen]; exact hoff)

/-- C3 (as amended): in a state reached with registration names shorter than
`MaxEventNameLength`, once `removeListener`, `removeAllListeners(name)` or an
`emit` consuming once-listeners has left the event found for `name` without
listeners, `emit(name, ...)` returns `false`, calls nothing and changes
nothing: the event is inactive and `findEvent` skips it. -/
theorem emit_after_listeners_gone (P : Params) (e e1 : EventEmitter) (name : CStr) (idx : Nat)
    (args : Args) (hr : ReachableShort P e) (hf : findEvent P e name = some idx)
    (hop : (∃ cb, e1 = removeListener P e name cb) ∨ e1 = removeAllListeners P e (some name) ∨
      (∃ a, e1 = (emit P e name a).state))
    (hgone : stored e1 idx = []) :
    emit P e1 name args = ⟨false, [], e1⟩ := by
  have hR := reachableShort_reachable P e hr
  have hI := reachable_inv P e hR
  have hS := reachableShort_shortInv P e hr
  have hidx := findEvent_lt P e name idx hf
  have hlen := inv_lt_length P e hI idx hidx
  apply emit_none
  rcases hop with ⟨cb, h⟩ | h | ⟨a, h⟩
  · have hI1 : Inv P e1 := by rw [h]; exact inv_removeListener P e name cb hI
    have hcount := stored_length P e1 hI1 idx (by rw [h, (frame_removeListener P e name cb).1]; exact hidx)
    rw [hgone] at hcount
    rw [h, removeListener_some P e name cb idx hf] at hcount ⊢
    rw [slot_setSlot_self e idx _ hlen] at hcount
    apply findEvent_none_setSlot P e name idx _ hI hS hf
    have h0 : (removeLoop cb (slot e idx).listeners 0 (slot e idx).listenerCount 0).2 = 0 :=
      hcount.symm
    simp [afterRemove, h0]
  · rw [h, removeAllListeners_some P e name idx hf]
    exact findEvent_none_setSlot P e name idx _ hI hS hf rfl
  · have hI1 : Inv P e1 := by rw [h]; exact inv_emit P e name a hI
    have hcount := stored_length P e1 hI1 idx (by rw [h, (frame_emit P e name a).1]; exact hidx)
    rw [hgone] at hcount
    rw [h, emit_some P e name a idx hf] at hcount ⊢
    simp only at hcount ⊢
    rw [slot_setSlot_self e idx _ hlen] at hcount
    apply findEvent_none_setSlot P e name idx _ hI hS hf
    have h0 : (emitLoop a (slot e idx).listeners 0 (slot e idx).listenerCount 0 []).2.1 = 0 :=
      hcount.symm
    simp [afterEmit, h0]

/-- After `once("y", 1)` and `emit("y")`, a further `emit("y")` returns `false`. -/
theorem emit_after_listeners_gone_witness :
    emit exParams (run exParams exFresh [.once nameY 1, .emit nameY []]) nameY [7]
      = ⟨false, [], run exParams exFresh [.once nameY 1, .emit nameY []]⟩ :=
  emit_after_listeners_gone exParams (run exParams exFresh [.once nameY 1])
    (run exParams exFresh [.once nameY 1, .emit nameY []]) nameY 0 [7]
    (reachableShort_run exParams _ _ (by decide) (by decide)) (by decide)
    (Or.inr (Or.inr ⟨[], rfl⟩)) (by decide)

/-- C3 fails as stated: after `once("y", F)` and `emit("y")`, which consumes
`F`, the event has no listener left, and the next `emit("y")` returns `false`,
not `true`; the same happens after `removeListener` and after
`removeAllListeners("y")`. -/
theorem emit_after_listeners_gone_counterexample :
    findEvent exParams (run exParams exFresh [.once nameY 1]) nameY = some 0 ∧
    stored (run exParams exFresh [.once nameY 1, .emit nameY []]) 0 = [] ∧
    (emit exParams (run exParams exFresh [.once nameY 1, .emit nameY []]) nameY [7]).ret = false ∧
    (emit exParams (run exParams exFresh [.on_ nameY 1, .removeListener nameY 1]) nameY [7]).ret
      = false ∧
    (emit exParams (run exParams exFresh [.on_ nameY 1, .removeAllListeners (some nameY)])
      nameY [7]).ret = false := by
  decide

/-! ## One-shot listeners -/

/-- An `emit` calls only listeners of the table and leaves every table a part
of what it was. -/
theorem within_emit (P : Params) (e t : EventEmitter) (name : CStr) (a : Args)
    (hI : Inv P t) (hW : Within e t) :
    Within e (emit P t name a).state ∧ CallsFrom e (emit P t name a).calls := by
  cases hf : findEvent P t name with
  | none =>
    rw [emit_none P t name a hf]
    exact ⟨hW, Or.inl rfl⟩
  | some idx =>
    have hidx := findEvent_lt P t name idx hf
    have hem := emit_found P t name a idx hI hf
    have hlen := inv_lt_length P t hI idx hidx
    constructor
    · intro j hj
      rw [hem.2.2.1] at hj
      have hj2 : j < t.eventCount := hj
      by_cases hji : j = idx
      · rw [hji, hem.2.2.2]
        rcases hW idx hidx with h | ⟨h1, h2⟩
        · left; rw [h]; rfl
        · right; exact ⟨h1, (List.filter_sublist _).trans h2⟩
      · have : stored (emit P t name a).state j = stored t j := by
          rw [hem.2.2.1]
          show storedOf (slot (setSlot t idx _) j) = _
          rw [slot_setSlot_ne t idx j _ hji]; rfl
        rw [this]
        exact hW j hj2
    · rw [hem.2.1]
      rcases hW idx hidx with h | ⟨h1, h2⟩
      · left; rw [h]; rfl
      · right
        exact ⟨idx, stored t idx, h1, h2, by simp [List.map_map, Function.comp_def]⟩

theorem within_emitRun (P : Params) (e : EventEmitter) (name : CStr) (as : List Args) :
    ∀ t, Inv P t → Within e t → ∀ r ∈ emitRun P t name as, CallsFrom e r.calls := by
  induction as with
  | nil => intro t _ _ r hr; simp [emitRun] at hr
  | cons a as ih =>
    intro t hI hW r hr
    have h := within_emit P e t name a hI hW
    simp only [emitRun, List.mem_cons] at hr
    rcases hr with hr | hr
    · rw [hr]; exact h.2
    · exact ih _ (inv_emit P t name a hI) h.1 r hr

/-- A registration that reaches the assignment appends to the listeners of the
event for the name and touches no other event. -/
theorem registerWith_appends_spec (P : Params) (e : EventEmitter) (name : CStr) (l : Listener)
    (hI : Inv P e) (hshort : strlen name < P.MaxEventNameLength)
    (happ : appends P e name = true) :
    ∃ idx, findEvent P (registerWith P e name l) name = some idx ∧
      stored (registerWith P e name l) idx = listenersOf P e name ++ [l] ∧
      (∀ j, j < (registerWith P e name l).eventCount → j ≠ idx →
        j < e.eventCount ∧ slot (registerWith P e name l) j = slot e j) ∧
      (listenersOf P e name = [] ∨ (idx < e.eventCount ∧ listenersOf P e name = stored e idx)) := by
  cases hf : findEvent P e name with
  | some idx =>
    have h := registerWith_found_spec P e name l idx hI hf
    have hc : (slot e idx).listenerCount < e.maxListeners := by
      simpa [appends, hf] using happ
    refine ⟨idx, h.2.2.2.1, ?_, ?_, Or.inr ⟨findEvent_lt P e name idx hf, ?_⟩⟩
    · rw [h.2.2.2.2, if_pos hc]; simp [listenersOf, hf]
    · intro j hj hji
      rw [h.1] at hj
      exact ⟨hj, h.2.2.1 j hji⟩
    · simp [listenersOf, hf]
  | none =>
    have hc : e.eventCount < P.MaxEvents ∧ 0 < e.maxListeners := by
      simpa [appends, hf] using happ
    have h := registerWith_created_spec P e name l hI hf hc.1 hshort
    refine ⟨e.eventCount, h.2.2.2.1, ?_, ?_, Or.inl ?_⟩
    · rw [h.2.2.2.2, if_pos hc.2]; simp [listenersOf, hf]
    · intro j hj hji
      rw [h.1] at hj
      exact ⟨by omega, h.2.2.1 j hji⟩
    · simp [listenersOf, hf]

theorem callsFrom_ne (e : EventEmitter) (cb : Callback) (calls : List (Callback × Args))
    (hfresh : ∀ j, j < e.eventCount → ∀ l ∈ stored e j, l.callback ≠ cb)
    (h : CallsFrom e calls) : ∀ c ∈ calls, c.1 ≠ cb := by
  intro c hc
  rcases h with h | ⟨j, l, hj, hsub, hmap⟩
  · rw [h] at hc; cases hc
  · have h1 : c.1 ∈ calls.map Prod.fst := List.mem_map_of_mem _ hc
    rw [hmap] at h1
    obtain ⟨x, hx, hxc⟩ := List.mem_map.mp h1
    rw [← hxc]
    exact hfresh j hj x (hsub.subset hx)

/-- C2: in a reachable state in which `once(name, cb)` appends a listener (name
shorter than `MaxEventNameLength`), in a following run of `emit(name, ...)`
calls the first one returns `true` and calls `cb` for that registration, after
the listeners registered before it, and leaves the event with its former
persistent listeners only, the registration removed; every call made by the
later emits goes through a listener already stored before `once` was called,
so none is for that registration, and `cb` is not called again at all when no
other listener holds it. -/
theorem once_fires_once (P : Params) (e : EventEmitter) (name : CStr) (cb : Callback)
    (a : Args) (as : List Args)
    (hr : Reachable P e) (hshort : strlen name < P.MaxEventNameLength)
    (happ : appends P e name = true) :
    (emit P (once P e name cb) name a).ret = true ∧
    (emit P (once P e name cb) name a).calls
      = (listenersOf P e name).map (fun l => (l.callback, a)) ++ [(cb, a)] ∧
    (∃ idx, findEvent P (once P e name cb) name = some idx ∧
      stored (once P e name cb) idx = listenersOf P e name ++ [⟨cb, true, true⟩] ∧
      stored (emit P (once P e name cb) name a).state idx
        = (listenersOf P e name).filter (fun l => !l.once)) ∧
    (∀ r ∈ emitRun P (emit P (once P e name cb) name a).state name as, CallsFrom e r.calls) ∧
    ((∀ j, j < e.eventCount → ∀ l ∈ stored e j, l.callback ≠ cb) →
      ∀ r ∈ emitRun P (emit P (once P e name cb) name a).state name as,
        ∀ c ∈ r.calls, c.1 ≠ cb) := by
  have hI := reachable_inv P e hr
  have hI1 : Inv P (once P e name cb) := by
    rw [once_eq_registerWith]; exact inv_registerWith P e name _ hI rfl
  obtain ⟨idx, hf1, hst, hother, hL⟩ :=
    registerWith_appends_spec P e name ⟨cb, true, true⟩ hI hshort happ
  rw [← once_eq_registerWith] at hf1 hst hother
  have hem := emit_found P (once P e name cb) name a idx hI1 hf1
  have hstate : stored (emit P (once P e name cb) name a).state idx
      = (listenersOf P e name).filter (fun l => !l.once) := by
    rw [hem.2.2.2, hst]; simp
  have hW : Within e (emit P (once P e name cb) name a).state := by
    intro j hj
    by_cases hji : j = idx
    · rw [hji, hstate]
      rcases hL with h | ⟨h1, h2⟩
      · left; rw [h]; rfl
      · right; exact ⟨h1, by rw [h2]; exact List.filter_sublist _⟩
    · have hj1 : j < (once P e name cb).eventCount := by
        rw [hem.2.2.1] at hj; exact hj
      have hsl : stored (emit P (once P e name cb) name a).state j = stored e j := by
        rw [hem.2.2.1]
        show storedOf (slot (setSlot _ idx _) j) = _
        rw [slot_setSlot_ne _ idx j _ hji, (hother j hj1 hji).2]; rfl
      right
      exact ⟨(hother j hj1 hji).1, by rw [hsl]⟩
  have hlater := within_emitRun P e name as _ (inv_emit P _ name a hI1) hW
  refine ⟨hem.1, ?_, ⟨idx, hf1, hst, hstate⟩, hlater, ?_⟩
  · rw [hem.2.1, hst]; simp
  · intro hfresh r hr2
    exact callsFrom_ne e cb r.calls hfresh (hlater r hr2)

/-- After `on("x", 1)` and `once("x", 2)`, the first `emit("x")` calls 1 then 2, and two further emits do not call 2. -/
theorem once_fires_once_witness :
    (emit exParams (once exParams (run exParams exFresh [.on_ nameX 1]) nameX 2) nameX [7]).calls
      = [(1, [7]), (2, [7])] ∧
    ∀ r ∈ emitRun exParams
        (emit exParams (once exParams (run exParams exFresh [.on_ nameX 1]) nameX 2) nameX
          [7]).state nameX [[8], [9]],
      ∀ c ∈ r.calls, c.1 ≠ 2 :=
  ⟨(once_fires_once exParams (run exParams exFresh [.on_ nameX 1]) nameX 2 [7] [[8], [9]]
      (reachable_run exParams _ _ (by decide)) (by decide) (by decide)).2.1.trans (by decide),
   (once_fires_once exParams (run exParams exFresh [.on_ nameX 1]) nameX 2 [7] [[8], [9]]
      (reachable_run exParams _ _ (by decide)) (by decide) (by decide)).2.2.2.2 (by decide)⟩

/-! ## The cap, the partition of `emit`, and array bounds -/

/-- C11: after `setMaxListeners(n)`, `getMaxListeners()` returns
`min(n, MaxListeners)` and the event table and `eventCount` are unchanged; on
a freshly constructed emitter `getMaxListeners()` returns `MaxListeners`. -/
theorem setMaxListeners_clamps (P : Params) (e : EventEmitter) (n : Nat) (mem : List Event) :
    getMaxListeners (setMaxListeners P e n) = min n P.MaxListeners ∧
    (setMaxListeners P e n).events = e.events ∧
    (setMaxListeners P e n).eventCount = e.eventCount ∧
    getMaxListeners (construct P mem) = P.MaxListeners := by
  refine ⟨?_, rfl, rfl, rfl⟩
  simp only [getMaxListeners, setMaxListeners]
  split_ifs with h
  · omega
  · omega

/-- What `emit` leaves in the slot it dispatched. -/
theorem emit_found_slot (P : Params) (e : EventEmitter) (name : CStr) (args : Args) (idx : Nat)
    (hI : Inv P e) (hf : findEvent P e name = some idx) :
    (slot (emit P e name args).state idx).listenerCount
      = ((stored e idx).filter (fun l => !l.once)).length ∧
    ((slot (emit P e name args).state idx).active = false
      ↔ (stored e idx).filter (fun l => !l.once) = []) := by
  have hidx := findEvent_lt P e name idx hf
  have hs := inv_shape_slot P e hI idx hidx
  have ho := hI.ok idx hidx
  have hle := count_le_length P _ hs ho
  have hact := findEvent_active P e name idx hf
  rw [emit_some P e name args idx hf]
  have hslot := slot_setSlot_self e idx (afterEmit args (slot e idx)) (inv_lt_length P e hI idx hidx)
  have hcount : (afterEmit args (slot e idx)).listenerCount
      = ((stored e idx).filter (fun l => !l.once)).length := by
    rw [count_afterEmit args _ hle, filter_active_not_once _ ho.2.1]; rfl
  show (slot (setSlot e idx (afterEmit args (slot e idx))) idx).listenerCount = _ ∧
    ((slot (setSlot e idx (afterEmit args (slot e idx))) idx).active = false ↔ _)
  rw [hslot]
  refine ⟨hcount, ?_⟩
  have hlen0 : (stored e idx).filter (fun l => !l.once) = []
      ↔ (afterEmit args (slot e idx)).listenerCount = 0 := by
    rw [hcount]; exact List.length_eq_zero.symm
  rw [hlen0]
  by_cases h0 : (afterEmit args (slot e idx)).listenerCount = 0
  · have h0b : (emitLoop args (slot e idx).listeners 0 (slot e idx).listenerCount 0 []).2.1 = 0 :=
      h0
    simp [afterEmit, h0b]
  · have h0b : ¬ (emitLoop args (slot e idx).listeners 0 (slot e idx).listenerCount 0 []).2.1 = 0 :=
      h0
    simp [afterEmit, h0b, hact]

/-- C15: in a reachable state, when `findEvent` finds an active event for the
name with listeners `L`, after `emit` the listeners of that event are the
listeners of `L` not marked `once`, in their order in `L`; `listenerCount` is
their number, and the event is marked inactive exactly when there is none. -/
theorem emit_stable_partition (P : Params) (e : EventEmitter) (name : CStr) (args : Args)
    (idx : Nat) (hr : Reachable P e) (hf : findEvent P e name = some idx) :
    stored (emit P e name args).state idx = (stored e idx).filter (fun l => !l.once) ∧
    (slot (emit P e name args).state idx).listenerCount
      = ((stored e idx).filter (fun l => !l.once)).length ∧
    ((slot (emit P e name args).state idx).active = false
      ↔ (stored e idx).filter (fun l => !l.once) = []) := by
  have hI := reachable_inv P e hr
  have h := emit_found_slot P e name args idx hI hf
  exact ⟨(emit_found P e name args idx hI hf).2.2.2, h.1, h.2⟩

/-- After `once("x", 1)` and `on("x", 2)`, `emit("x")` leaves listener 2 alone. -/
theorem emit_stable_partition_witness :
    stored (emit exParams (run exParams exFresh [.once nameX 1, .on_ nameX 2]) nameX [7]).state 0
      = [⟨2, false, true⟩] :=
  (emit_stable_partition exParams (run exParams exFresh [.once nameX 1, .on_ nameX 2]) nameX [7] 0
    (reachable_run exParams _ _ (by decide)) (by decide)).1.trans (by decide)

theorem registerWith_eq_eventFor (P : Params) (e : EventEmitter) (name : CStr) (l : Listener) :
    registerWith P e name l
      = match eventFor P e name with
        | none => e
        | some (idx, e1) => addListener e1 idx l := by
  unfold registerWith eventFor
  cases findEvent P e name with
  | some idx => rfl
  | none => rfl

/-- The event `on`/`once` work on lies in the table of an emitter satisfying
the invariant. -/
theorem eventFor_spec (P : Params) (e : EventEmitter) (name : CStr) (idx : Nat)
    (e1 : EventEmitter) (hI : Inv P e) (h : eventFor P e name = some (idx, e1)) :
    Inv P e1 ∧ idx < e1.eventCount := by
  unfold eventFor at h
  cases hf : findEvent P e name with
  | some i =>
    rw [hf] at h
    simp only [Option.some.injEq, Prod.mk.injEq] at h
    rw [← h.1, ← h.2]
    exact ⟨hI, findEvent_lt P e name i hf⟩
  | none =>
    rw [hf] at h
    simp only [createEvent_eq] at h
    split_ifs at h with hfull
    simp only [Option.some.injEq, Prod.mk.injEq] at h
    rw [← h.1, ← h.2]
    exact ⟨inv_afterCreate P e name hI (by omega), by show e.eventCount < e.eventCount + 1; omega⟩

/-- C16: in every reachable state `eventCount <= MaxEvents`,
`maxListeners <= MaxListeners` and `listenerCount <= MaxListeners` for every
event in the first `eventCount` slots, the arrays having `MaxEvents` and
`MaxListeners` elements; hence `createEvent` writes `events[eventCount]` only
below `MaxEvents`, and `on`/`once` write `listeners[listenerCount]` only below
`MaxListeners`. -/
theorem writes_in_bounds (P : Params) (e : EventEmitter) (hr : Reachable P e) :
    e.eventCount ≤ P.MaxEvents ∧ e.maxListeners ≤ P.MaxListeners ∧
    (∀ i, i < e.eventCount → (slot e i).listenerCount ≤ P.MaxListeners) ∧
    e.events.length = P.MaxEvents ∧
    (∀ ev ∈ e.events, ev.listeners.length = P.MaxListeners) ∧
    (∀ name idx e1, createEvent P e name = some (idx, e1) →
      idx = e.eventCount ∧ idx < e.events.length) ∧
    (∀ name idx e1, eventFor P e name = some (idx, e1) →
      (slot e1 idx).listenerCount < e1.maxListeners →
      (slot e1 idx).listenerCount < (slot e1 idx).listeners.length) := by
  have hI := reachable_inv P e hr
  refine ⟨hI.count, hI.cap, fun i hi => (hI.ok i hi).1, hI.length,
    fun ev hev => (hI.shape ev hev).1, ?_, ?_⟩
  · intro name idx e1 h
    simp only [createEvent_eq] at h
    split_ifs at h with hfull
    simp only [Option.some.injEq, Prod.mk.injEq] at h
    refine ⟨h.1.symm, ?_⟩
    rw [← h.1, hI.length]; omega
  · intro name idx e1 h hc
    obtain ⟨hI1, hidx⟩ := eventFor_spec P e name idx e1 hI h
    rw [(inv_shape_slot P e1 hI1 idx hidx).1]
    have := hI1.cap
    omega

/-- With two events and two listeners on `"x"`, a third `on("x")` finds the event and does not
reach the write; `on("abc")` finds the pool full. -/
theorem writes_in_bounds_witness :
    (run exParams exFresh [.on_ nameX 1, .on_ nameX 2, .on_ nameY 3]).eventCount ≤ 2 ∧
    (∀ i, i < (run exParams exFresh [.on_ nameX 1, .on_ nameX 2, .on_ nameY 3]).eventCount →
      (slot (run exParams exFresh [.on_ nameX 1, .on_ nameX 2, .on_ nameY 3]) i).listenerCount
        ≤ 2) :=
  ⟨(writes_in_bounds exParams (run exParams exFresh [.on_ nameX 1, .on_ nameX 2, .on_ nameY 3])
      (reachable_run exParams _ _ (by decide))).1,
   (writes_in_bounds exParams (run exParams exFresh [.on_ nameX 1, .on_ nameX 2, .on_ nameY 3])
      (reachable_run exParams _ _ (by decide))).2.2.1⟩

theorem getD_mem_take {α : Type} (ls : List α) (d : α) (j k : Nat) (hj : j < k)
    (hk : k ≤ ls.length) : ls.getD j d ∈ ls.take k := by
  have hjl : j < ls.length := by omega
  have hjt : j < (ls.take k).length := by rw [List.length_take]; omega
  have : (ls.take k)[j] = ls[j] := List.getElem_take _
  rw [List.getD_eq_getElem _ _ hjl, ← this]
  exact List.getElem_mem hjt

/-- C20: in every reachable state, every listener in a slot below
`listenerCount` of an event in the first `eventCount` slots has `active == true`;
hence the loop of `emit` skips none of them: it makes `listenerCount` calls. -/
theorem stored_listeners_active (P : Params) (e : EventEmitter) (hr : Reachable P e) :
    (∀ i j, i < e.eventCount → j < (slot e i).listenerCount →
      ((slot e i).listeners.getD j default).active = true) ∧
    (∀ name args idx, findEvent P e name = some idx →
      (emit P e name args).calls.length = (slot e idx).listenerCount) := by
  have hI := reachable_inv P e hr
  constructor
  · intro i j hi hj
    have hle := count_le_length P _ (inv_shape_slot P e hI i hi) (hI.ok i hi)
    exact (hI.ok i hi).2.1 _ (getD_mem_take _ default j _ hj hle)
  · intro name args idx hf
    rw [(emit_found P e name args idx hI hf).2.1, List.length_map]
    exact stored_length P e hI idx (findEvent_lt P e name idx hf)

/-- After `once("x", 1)`, `on("x", 2)` and an `emit("x")`, the one listener left is active. -/
theorem stored_listeners_active_witness :
    ((slot (run exParams exFresh [.once nameX 1, .on_ nameX 2, .emit nameX []]) 0).listeners.getD
      0 default).active = true :=
  (stored_listeners_active exParams (run exParams exFresh [.once nameX 1, .on_ nameX 2, .emit nameX []])
    (reachable_run exParams _ _ (by decide))).1 0 0 (by decide) (by decide)

/-! ## The runtime cap -/

theorem slot_setSlot_cases (e : EventEmitter) (idx j : Nat) (ev : Event) :
    slot (setSlot e idx ev) j = ev ∨ slot (setSlot e idx ev) j = slot e j := by
  by_cases hj : j = idx
  · by_cases hlen : idx < e.events.length
    · left; rw [hj]; exact slot_setSlot_self e idx ev hlen
    · right
      have : setSlot e idx ev = e := by
        unfold setSlot
        rw [List.set_eq_of_length_le (by omega)]
      rw [this]
  · right; exact slot_setSlot_ne e idx j ev hj

theorem count_afterEmit_le (P : Params) (args : Args) (ev : Event) (hs : EventShape P ev)
    (ho : EventOk P ev) : (afterEmit args ev).listenerCount ≤ ev.listenerCount := by
  have hle := count_le_length P ev hs ho
  rw [count_afterEmit args ev hle]
  have h1 := List.length_filter_le (fun l : Listener => l.active && !l.once) (storedOf ev)
  have h2 : (storedOf ev).length ≤ ev.listenerCount := by simp [storedOf]
  omega

theorem count_afterRemove_le (P : Params) (cb : Callback) (ev : Event) (hs : EventShape P ev)
    (ho : EventOk P ev) : (afterRemove cb ev).listenerCount ≤ ev.listenerCount := by
  have hle := count_le_length P ev hs ho
  rw [count_afterRemove cb ev hle]
  have h1 := List.length_filter_le (fun l : Listener => decide (l.callback ≠ cb)) (storedOf ev)
  have h2 : (storedOf ev).length ≤ ev.listenerCount := by simp [storedOf]
  omega

theorem capInv_setSlot (e : EventEmitter) (idx : Nat) (ev : Event) (h : CapInv e)
    (hev : ev.listenerCount ≤ e.maxListeners) : CapInv (setSlot e idx ev) := by
  intro i hi
  rcases slot_setSlot_cases e idx i ev with h1 | h1
  · rw [h1]; exact hev
  · rw [h1]; exact h i hi

theorem capInv_addListener (e : EventEmitter) (idx : Nat) (l : Listener) (h : CapInv e) :
    CapInv (addListener e idx l) := by
  rw [addListener_eq]
  split_ifs with hc
  · exact capInv_setSlot e idx _ h (by show (slot e idx).listenerCount + 1 ≤ e.maxListeners; omega)
  · exact h

theorem capInv_registerWith (P : Params) (e : EventEmitter) (name : CStr) (l : Listener)
    (hI : Inv P e) (h : CapInv e) : CapInv (registerWith P e name l) := by
  cases hf : findEvent P e name with
  | some idx =>
    rw [registerWith_found P e name l idx hf]
    exact capInv_addListener e idx l h
  | none =>
    by_cases hfull : e.eventCount < P.MaxEvents
    · rw [registerWith_created P e name l hf hfull]
      apply capInv_addListener
      have hc := afterCreate_spec P e name hI hfull
      intro i hi
      rw [hc.1] at hi
      rw [hc.2.1]
      by_cases hie : i = e.eventCount
      · rw [hie, hc.2.2.2.2.2.1]; omega
      · rw [hc.2.2.1 i hie]; exact h i (by omega)
    · rw [registerWith_full P e name l hf (by omega)]
      exact h

theorem capInv_step (P : Params) (e : EventEmitter) (op : Op) (hI : Inv P e) (h : CapInv e)
    (hop : Op.capFits e op) : CapInv (step P e op) := by
  cases op with
  | on_ name cb => exact capInv_registerWith P e name _ hI h
  | once name cb => exact capInv_registerWith P e name _ hI h
  | emit name args =>
    show CapInv (emit P e name args).state
    cases hf : findEvent P e name with
    | none => rw [emit_none P e name args hf]; exact h
    | some idx =>
      rw [emit_some P e name args idx hf]
      have hidx := findEvent_lt P e name idx hf
      have := count_afterEmit_le P args _ (inv_shape_slot P e hI idx hidx) (hI.ok idx hidx)
      have := h idx hidx
      exact capInv_setSlot e idx _ h (by omega)
  | removeListener name cb =>
    show CapInv (removeListener P e name cb)
    cases hf : findEvent P e name with
    | none => rw [removeListener_none P e name cb hf]; exact h
    | some idx =>
      rw [removeListener_some P e name cb idx hf]
      have hidx := findEvent_lt P e name idx hf
      have := count_afterRemove_le P cb _ (inv_shape_slot P e hI idx hidx) (hI.ok idx hidx)
      have := h idx hidx
      exact capInv_setSlot e idx _ h (by omega)
  | removeAllListeners name =>
    cases name with
    | none =>
      intro i hi
      simp [step, removeAllListeners] at hi
    | some nm =>
      show CapInv (removeAllListeners P e (some nm))
      cases hf : findEvent P e nm with
      | none => rw [removeAllListeners_none P e nm hf]; exact h
      | some idx =>
        rw [removeAllListeners_some P e nm idx hf]
        exact capInv_setSlot e idx _ h (Nat.zero_le _)
  | setMaxListeners n =>
    have hop2 : ∀ i, i < e.eventCount → (slot e i).listenerCount ≤ n := hop
    intro i hi
    have h1 := hop2 i hi
    have h2 := (hI.ok i hi).1
    show (slot e i).listenerCount ≤ (if n > P.MaxListeners then P.MaxListeners else n)
    split_ifs <;> omega

theorem reachableCapFits_reachable (P : Params) (e : EventEmitter) (h : ReachableCapFits P e) :
    Reachable P e := by
  induction h with
  | construct mem hm => exact Reachable.construct mem hm
  | step e op _ _ ih => exact Reachable.step e op ih

/-- C12 (as amended): in every state reachable from the constructor by public
operations in which `setMaxListeners(n)` is only called while no event holds
more than `n` listeners, every event in the first `eventCount` slots satisfies
`listenerCount <= maxListeners`, `maxListeners` being the current runtime cap. -/
theorem listenerCount_le_cap (P : Params) (e : EventEmitter) (hr : ReachableCapFits P e) :
    ∀ i, i < e.eventCount → (slot e i).listenerCount ≤ e.maxListeners := by
  induction hr with
  | construct mem hm =>
    intro i hi
    simp [construct] at hi
  | step e op hr hop ih =>
    exact capInv_step P e op (reachable_inv P e (reachableCapFits_reachable P e hr)) ih hop

/-- After `setMaxListeners(1)`, `on("x", 1)` and `on("x", 2)`, with `MaxListeners = 2`, the cap
is 1 and the event holds one listener: the second registration was dropped. -/
theorem listenerCount_le_cap_witness :
    (step exParams (step exParams (step exParams exFresh
        (.setMaxListeners 1)) (.on_ nameX 1)) (.on_ nameX 2)).maxListeners = 1 ∧
    (slot (step exParams (step exParams (step exParams exFresh
        (.setMaxListeners 1)) (.on_ nameX 1)) (.on_ nameX 2)) 0).listenerCount
      ≤ (step exParams (step exParams (step exParams exFresh
        (.setMaxListeners 1)) (.on_ nameX 1)) (.on_ nameX 2)).maxListeners :=
  ⟨by decide,
   listenerCount_le_cap exParams _
    (ReachableCapFits.step _ _
      (ReachableCapFits.step _ _
        (ReachableCapFits.step _ _
          (ReachableCapFits.construct (zeroMem exParams) (by decide)) (by decide))
        (by decide))
      (by decide)) 0 (by decide)⟩

/-- C12 fails as stated: after two `on("x")` and `setMaxListeners(1)` the event
in slot 0 has 2 listeners while the cap is 1. -/
theorem listenerCount_le_cap_counterexample :
    0 < (run exParams exFresh [.on_ nameX 1, .on_ nameX 2, .setMaxListeners 1]).eventCount ∧
    ¬ ((slot (run exParams exFresh [.on_ nameX 1, .on_ nameX 2, .setMaxListeners 1]) 0).listenerCount
      ≤ (run exParams exFresh [.on_ nameX 1, .on_ nameX 2, .setMaxListeners 1]).maxListeners) := by
  decide

/-! ## Slots and names -/

/-- C13: with `MaxEventNameLength = 4`, two `on("abcd", ...)` calls leave two
active events, in slots 0 and 1, that hold the same stored name `"abc"`. -/
theorem duplicate_long_name :
    (run exParams exFresh [.on_ nameAbcd 1, .on_ nameAbcd 2]).eventCount = 2 ∧
    (slot (run exParams exFresh [.on_ nameAbcd 1, .on_ nameAbcd 2]) 0).active = true ∧
    (slot (run exParams exFresh [.on_ nameAbcd 1, .on_ nameAbcd 2]) 1).active = true ∧
    (slot (run exParams exFresh [.on_ nameAbcd 1, .on_ nameAbcd 2]) 0).name
      = (slot (run exParams exFresh [.on_ nameAbcd 1, .on_ nameAbcd 2]) 1).name := by
  decide

/-! ## The `active` flag of an event -/

theorem zeroInv_setSlot (e : EventEmitter) (idx : Nat) (ev : Event) (h : ZeroInv e)
    (hev : ev.listenerCount = 0 → ev.active = false) : ZeroInv (setSlot e idx ev) := by
  intro i hi
  rcases slot_setSlot_cases e idx i ev with h1 | h1
  · rw [h1]; exact hev
  · rw [h1]; exact h i hi

theorem zeroInv_addListener (e : EventEmitter) (idx : Nat) (l : Listener) (h : ZeroInv e) :
    ZeroInv (addListener e idx l) := by
  rw [addListener_eq]
  split_ifs with hc
  · apply zeroInv_setSlot e idx _ h
    intro h0
    have h1 : (slot e idx).listenerCount + 1 = 0 := h0
    omega
  · exact h

theorem zeroInv_registerWith (P : Params) (e : EventEmitter) (name : CStr) (l : Listener)
    (hI : Inv P e) (h : ZeroInv e) (hcap : 0 < e.maxListeners) :
    ZeroInv (registerWith P e name l) := by
  cases hf : findEvent P e name with
  | some idx =>
    rw [registerWith_found P e name l idx hf]
    exact zeroInv_addListener e idx l h
  | none =>
    by_cases hfull : e.eventCount < P.MaxEvents
    · rw [registerWith_created P e name l hf hfull]
      have hc := afterCreate_spec P e name hI hfull
      have hlen : e.eventCount < (afterCreate P e name).events.length := by
        rw [(inv_afterCreate P e name hI hfull).length]; exact hfull
      have hlt : (slot (afterCreate P e name) e.eventCount).listenerCount
          < (afterCreate P e name).maxListeners := by
        rw [hc.2.2.2.2.2.1, hc.2.1]; exact hcap
      rw [addListener_eq, if_pos hlt]
      intro i hi h0
      by_cases hie : i = e.eventCount
      · rw [hie, slot_setSlot_self _ _ _ hlen] at h0
        have h1 : (slot (afterCreate P e name) e.eventCount).listenerCount + 1 = 0 := h0
        omega
      · rw [slot_setSlot_ne _ _ i _ hie] at h0 ⊢
        rw [hc.2.2.1 i hie] at h0 ⊢
        have hi2 : i < e.eventCount + 1 := hi
        exact h i (by omega) h0
    · rw [registerWith_full P e name l hf (by omega)]
      exact h

theorem zeroInv_step (P : Params) (e : EventEmitter) (op : Op) (hI : Inv P e) (h : ZeroInv e)
    (hop : Op.capAllows e op) : ZeroInv (step P e op) := by
  cases op with
  | on_ name cb => exact zeroInv_registerWith P e name _ hI h hop
  | once name cb => exact zeroInv_registerWith P e name _ hI h hop
  | emit name args =>
    show ZeroInv (emit P e name args).state
    cases hf : findEvent P e name with
    | none => rw [emit_none P e name args hf]; exact h
    | some idx =>
      rw [emit_some P e name args idx hf]
      apply zeroInv_setSlot e idx _ h
      intro h0
      have h0b : (emitLoop args (slot e idx).listeners 0 (slot e idx).listenerCount 0 []).2.1 = 0 :=
        h0
      simp [afterEmit, h0b]
  | removeListener name cb =>
    show ZeroInv (removeListener P e name cb)
    cases hf : findEvent P e name with
    | none => rw [removeListener_none P e name cb hf]; exact h
    | some idx =>
      rw [removeListener_some P e name cb idx hf]
      apply zeroInv_setSlot e idx _ h
      intro h0
      have h0b : (removeLoop cb (slot e idx).listeners 0 (slot e idx).listenerCount 0).2 = 0 := h0
      simp [afterRemove, h0b]
  | removeAllListeners name =>
    cases name with
    | none =>
      intro i hi
      simp [step, removeAllListeners] at hi
    | some nm =>
      show ZeroInv (removeAllListeners P e (some nm))
      cases hf : findEvent P e nm with
      | none => rw [removeAllListeners_none P e nm hf]; exact h
      | some idx =>
        rw [removeAllListeners_some P e nm idx hf]
        exact zeroInv_setSlot e idx _ h (fun _ => rfl)
  | setMaxListeners n => exact h

theorem reachableCapPos_reachable (P : Params) (e : EventEmitter) (h : ReachableCapPos P e) :
    Reachable P e := by
  induction h with
  | construct mem hm => exact Reachable.construct mem hm
  | step e op _ _ ih => exact Reachable.step e op ih

theorem reachableCapPos_zeroInv (P : Params) (e : EventEmitter) (h : ReachableCapPos P e) :
    ZeroInv e := by
  induction h with
  | construct mem hm =>
    intro i hi
    simp [construct] at hi
  | step e op hr hop ih =>
    exact zeroInv_step P e op (reachable_inv P e (reachableCapPos_reachable P e hr)) ih hop

/-- C17 (as amended): in every reachable state an inactive event in the first
`eventCount` slots has no listeners; and when `maxListeners` was at least 1 at
every `on` and `once`, `active == false` if and only if `listenerCount == 0`. -/
theorem inactive_iff_no_listeners (P : Params) (e : EventEmitter) (hr : Reachable P e) :
    (∀ i, i < e.eventCount → (slot e i).active = false → (slot e i).listenerCount = 0) ∧
    (ReachableCapPos P e →
      ∀ i, i < e.eventCount → ((slot e i).active = false ↔ (slot e i).listenerCount = 0)) := by
  have hI := reachable_inv P e hr
  refine ⟨fun i hi => (hI.ok i hi).2.2.1, fun hc i hi => ⟨(hI.ok i hi).2.2.1, ?_⟩⟩
  exact reachableCapPos_zeroInv P e hc i hi

/-- After `once("y", 1)` and `emit("y")`, slot 0 is inactive and has no listeners. -/
theorem inactive_iff_no_listeners_witness :
    ((slot (step exParams (step exParams exFresh (.once nameY 1)) (.emit nameY [])) 0).active
        = false
      ↔ (slot (step exParams (step exParams exFresh (.once nameY 1)) (.emit nameY []))
          0).listenerCount = 0) :=
  (inactive_iff_no_listeners exParams
    (step exParams (step exParams exFresh (.once nameY 1)) (.emit nameY []))
    (Reachable.step _ _ (Reachable.step _ _ (Reachable.construct (zeroMem exParams) (by decide))))).2
    (ReachableCapPos.step _ _
      (ReachableCapPos.step _ _ (ReachableCapPos.construct (zeroMem exParams) (by decide))
        (by decide))
      (by decide)) 0 (by decide)

/-- C17 fails as stated: after `setMaxListeners(0)` and `on("x", 1)` the event
in slot 0 is active and has no listeners. -/
theorem inactive_iff_no_listeners_counterexample :
    0 < (run exParams exFresh [.setMaxListeners 0, .on_ nameX 1]).eventCount ∧
    (slot (run exParams exFresh [.setMaxListeners 0, .on_ nameX 1]) 0).listenerCount = 0 ∧
    (slot (run exParams exFresh [.setMaxListeners 0, .on_ nameX 1]) 0).active = true := by
  decide

/-! ## Operations on one name leave the other names alone -/

theorem findEvent_congr_grow (P : Params) (e e1 : EventEmitter) (name : CStr)
    (hc : e.eventCount ≤ e1.eventCount)
    (hsame : ∀ j, j < e.eventCount → matchesAt P e1 name j = matchesAt P e name j)
    (hnew : ∀ j, e.eventCount ≤ j → j < e1.eventCount → matchesAt P e1 name j = false) :
    findEvent P e1 name = findEvent P e name := by
  cases hf : findEvent P e name with
  | none =>
    rw [findEvent_none] at hf ⊢
    intro j hj
    by_cases hje : j < e.eventCount
    · rw [hsame j hje]; exact hf j hje
    · exact hnew j (by omega) hj
  | some idx =>
    rw [findEvent_some] at hf ⊢
    obtain ⟨h1, h2, h3⟩ := hf
    refine ⟨by omega, by rw [hsame idx h1]; exact h2, fun j hj => ?_⟩
    rw [hsame j (by omega)]; exact h3 j hj

/-- A stored name that compares equal to `n` does not compare equal to a
different string. -/
theorem no_match_other (P : Params) (nm n n1 : CStr) (hN : 0 < P.MaxEventNameLength)
    (h : strncmpEq (storedName P nm) n P.MaxEventNameLength = true) (hne : cstr n ≠ cstr n1) :
    strncmpEq (storedName P nm) n1 P.MaxEventNameLength = false := by
  cases h1 : strncmpEq (storedName P nm) n1 P.MaxEventNameLength with
  | false => rfl
  | true =>
    rw [strncmpEq_storedName P nm _ hN] at h h1
    exact absurd (h.trans h1.symm) hne

/-- The emitter read through `findEvent`, the listener tables and `emit` for
the name `n1` is the same in `e` and `e1`. -/
theorem emit_same_of_frame (P : Params) (e e1 : EventEmitter) (n1 : CStr)
    (hI : Inv P e) (hI1 : Inv P e1) (hf : findEvent P e1 n1 = findEvent P e n1)
    (hs : ∀ idx, findEvent P e n1 = some idx → stored e1 idx = stored e idx) (a : Args) :
    (emit P e1 n1 a).ret = (emit P e n1 a).ret ∧
    (emit P e1 n1 a).calls = (emit P e n1 a).calls := by
  cases h : findEvent P e n1 with
  | none =>
    rw [emit_none P e n1 a h, emit_none P e1 n1 a (by rw [hf, h])]
    exact ⟨rfl, rfl⟩
  | some idx =>
    have h1 := emit_found P e n1 a idx hI h
    have h2 := emit_found P e1 n1 a idx hI1 (by rw [hf, h])
    exact ⟨by rw [h1.1, h2.1], by rw [h1.2.1, h2.2.1, hs idx h]⟩

/-- Replacing the event found for `n`, its name kept, is not seen through
another name. -/
theorem setSlot_frame_other (P : Params) (e : EventEmitter) (n n1 : CStr) (idx : Nat)
    (ev : Event) (hI : Inv P e) (hN : 0 < P.MaxEventNameLength)
    (hf : findEvent P e n = some idx) (hne : cstr n ≠ cstr n1)
    (hname : ev.name = (slot e idx).name) :
    findEvent P (setSlot e idx ev) n1 = findEvent P e n1 ∧
    (∀ i, findEvent P e n1 = some i → stored (setSlot e idx ev) i = stored e i) := by
  have hfs := (findEvent_some P e n idx).mp hf
  have hidx := hfs.1
  have hlen := inv_lt_length P e hI idx hidx
  obtain ⟨nm, hnm⟩ := (hI.ok idx hidx).2.2.2 hN
  have hm := hfs.2.1
  simp only [matchesAt, Bool.and_eq_true] at hm
  have hno : strncmpEq (slot e idx).name n1 P.MaxEventNameLength = false := by
    rw [hnm]; apply no_match_other P nm n n1 hN _ hne; rw [← hnm]; exact hm.2
  have hno0 : matchesAt P e n1 idx = false := by simp [matchesAt, hno]
  constructor
  · apply findEvent_congr P e (setSlot e idx ev) n1 rfl
    intro j _
    by_cases hj : j = idx
    · rw [hj, hno0]
      simp [matchesAt, slot_setSlot_self e idx ev hlen, hname, hno]
    · rw [matchesAt, slot_setSlot_ne e idx j ev hj]; rfl
  · intro i hi
    have hmi := ((findEvent_some P e n1 i).mp hi).2.1
    have hne2 : i ≠ idx := by
      intro h; rw [h, hno0] at hmi; cases hmi
    show storedOf (slot (setSlot e idx ev) i) = _
    rw [slot_setSlot_ne e idx i ev hne2]; rfl

/-- A registration on `n` is not seen through another name. -/
theorem registerWith_frame_other (P : Params) (e : EventEmitter) (n n1 : CStr) (l : Listener)
    (hI : Inv P e) (hshort : strlen n < P.MaxEventNameLength) (hne : cstr n ≠ cstr n1) :
    findEvent P (registerWith P e n l) n1 = findEvent P e n1 ∧
    (∀ i, findEvent P e n1 = some i → stored (registerWith P e n l) i = stored e i) := by
  have hN : 0 < P.MaxEventNameLength := by omega
  cases hf : findEvent P e n with
  | some idx =>
    rw [registerWith_found P e n l idx hf, addListener_eq]
    split_ifs
    · exact setSlot_frame_other P e n n1 idx _ hI hN hf hne rfl
    · exact ⟨rfl, fun _ _ => rfl⟩
  | none =>
    by_cases hfull : e.eventCount < P.MaxEvents
    · rw [registerWith_created P e n l hf hfull]
      have hc := afterCreate_spec P e n hI hfull
      have hI1 := inv_afterCreate P e n hI hfull
      have hidx : e.eventCount < (afterCreate P e n).eventCount := by rw [hc.1]; omega
      have ha := addListener_spec P (afterCreate P e n) e.eventCount l hI1 hidx
      have hfe : findEvent P (afterCreate P e n) n1 = findEvent P e n1 := by
        apply findEvent_congr_grow P e _ n1 (by rw [hc.1]; omega)
        · intro j hj
          rw [matchesAt, hc.2.2.1 j (by omega)]; rfl
        · intro j hj1 hj2
          rw [hc.1] at hj2
          have hje : j = e.eventCount := by omega
          rw [hje, matchesAt, hc.2.2.2.1 hN,
            no_match_other P n n n1 hN (strncmpEq_self P n hshort) hne]
          simp
      constructor
      · rw [findEvent_addListener P _ _ l hI1 hidx, hfe]
      · intro i hi
        have hilt := findEvent_lt P e n1 i hi
        have hie : i ≠ e.eventCount := by omega
        show storedOf (slot (addListener (afterCreate P e n) e.eventCount l) i) = _
        rw [ha.2.2.1 i hie, hc.2.2.1 i hie]; rfl
    · rw [registerWith_full P e n l hf (by omega)]
      exact ⟨rfl, fun _ _ => rfl⟩

/-- C18: in a reachable state, for two different names `n` and `n1` shorter
than `MaxEventNameLength`, each of `on(n, cb)`, `once(n, cb)`, `emit(n, ...)`,
`removeListener(n, cb)` and `removeAllListeners(n)` leaves the result of
`findEvent(n1)` and the listeners of the event of `n1` unchanged, so that a
later `emit(n1)` returns the same value and makes the same calls in the same
order. -/
theorem other_name_untouched (P : Params) (e e1 : EventEmitter) (n n1 : CStr) (cb : Callback)
    (args : Args) (hr : Reachable P e) (hshort : strlen n < P.MaxEventNameLength)
    (hshort1 : strlen n1 < P.MaxEventNameLength) (hne : cstr n ≠ cstr n1)
    (hop : e1 = on_ P e n cb ∨ e1 = once P e n cb ∨ e1 = (emit P e n args).state ∨
      e1 = removeListener P e n cb ∨ e1 = removeAllListeners P e (some n)) :
    findEvent P e1 n1 = findEvent P e n1 ∧
    (∀ i, findEvent P e n1 = some i → stored e1 i = stored e i) ∧
    (∀ a, (emit P e1 n1 a).ret = (emit P e n1 a).ret ∧
      (emit P e1 n1 a).calls = (emit P e n1 a).calls) := by
  have hI := reachable_inv P e hr
  have hN : 0 < P.MaxEventNameLength := by omega
  have key : Inv P e1 ∧ findEvent P e1 n1 = findEvent P e n1 ∧
      (∀ i, findEvent P e n1 = some i → stored e1 i = stored e i) := by
    rcases hop with h | h | h | h | h
    · rw [h, on_eq_registerWith]
      exact ⟨inv_registerWith P e n _ hI rfl, registerWith_frame_other P e n n1 _ hI hshort hne⟩
    · rw [h, once_eq_registerWith]
      exact ⟨inv_registerWith P e n _ hI rfl, registerWith_frame_other P e n n1 _ hI hshort hne⟩
    · refine ⟨by rw [h]; exact inv_emit P e n args hI, ?_⟩
      cases hf : findEvent P e n with
      | none => rw [h, emit_none P e n args hf]; exact ⟨rfl, fun _ _ => rfl⟩
      | some idx =>
        rw [h, emit_some P e n args idx hf]
        exact setSlot_frame_other P e n n1 idx _ hI hN hf hne rfl
    · refine ⟨by rw [h]; exact inv_removeListener P e n cb hI, ?_⟩
      cases hf : findEvent P e n with
      | none => rw [h, removeListener_none P e n cb hf]; exact ⟨rfl, fun _ _ => rfl⟩
      | some idx =>
        rw [h, removeListener_some P e n cb idx hf]
        exact setSlot_frame_other P e n n1 idx _ hI hN hf hne rfl
    · refine ⟨by rw [h]; exact inv_removeAllListeners P e (some n) hI, ?_⟩
      cases hf : findEvent P e n with
      | none => rw [h, removeAllListeners_none P e n hf]; exact ⟨rfl, fun _ _ => rfl⟩
      | some idx =>
        rw [h, removeAllListeners_some P e n idx hf]
        exact setSlot_frame_other P e n n1 idx _ hI hN hf hne rfl
  exact ⟨key.2.1, key.2.2, fun a => emit_same_of_frame P e e1 n1 hI key.1 key.2.1 key.2.2 a⟩

/-- With listeners on `"x"` and `"y"`, `removeAllListeners("x")` does not change what
`emit("y")` returns and calls. -/
theorem other_name_untouched_witness :
    (emit exParams (removeAllListeners exParams
        (run exParams exFresh [.on_ nameX 1, .once nameY 2]) (some nameX)) nameY [7]).calls
      = [(2, [7])] :=
  ((other_name_untouched exParams (run exParams exFresh [.on_ nameX 1, .once nameY 2])
      (removeAllListeners exParams (run exParams exFresh [.on_ nameX 1, .once nameY 2])
        (some nameX)) nameX nameY 0 []
      (reachable_run exParams _ _ (by decide)) (by decide) (by decide) (by decide)
      (Or.inr (Or.inr (Or.inr (Or.inr rfl))))).2.2 [7]).2.trans (by decide)

/-! ## A second `emit` -/

/-- C19: with `MaxEventNameLength = 4`, after `once("abcd", 1)` and
`once("abcd", 2)` two active events hold the name `"abc"`; the first
`emit("abc")` consumes the listener of slot 0, the second one finds slot 1,
calls its listener and consumes it, so the emitter after two emits differs
from the emitter after one. -/
theorem emit_twice_long_name :
    (emit exParams (run exParams exFresh [.once nameAbcd 1, .once nameAbcd 2]) nameAbc []).calls
      = [(1, [])] ∧
    (emit exParams
      (emit exParams (run exParams exFresh [.once nameAbcd 1, .once nameAbcd 2]) nameAbc []).state
      nameAbc []).calls = [(2, [])] ∧
    (emit exParams
      (emit exParams (run exParams exFresh [.once nameAbcd 1, .once nameAbcd 2]) nameAbc []).state
      nameAbc []).state
      ≠ (emit exParams (run exParams exFresh [.once nameAbcd 1, .once nameAbcd 2]) nameAbc []).state := by
  decide

/-- The loop of `emit` writes nothing when every listener it visits is active
and persistent. -/
theorem emitLoop_persistent (args : Args) (k : Nat) :
    ∀ (ls : List Listener) (i : Nat) (tr : List (Callback × Args)),
      i + k ≤ ls.length →
      (∀ l ∈ (ls.drop i).take k, l.active = true ∧ l.once = false) →
      (emitLoop args ls i k i tr).1 = ls ∧ (emitLoop args ls i k i tr).2.1 = i + k := by
  induction k with
  | zero => intro ls i tr _ _; simp [emitLoop]
  | succ k ih =>
    intro ls i tr hlen hall
    have hi : i < ls.length := by omega
    rw [segment_succ ls i k hi] at hall
    have h0 := hall ls[i] (List.mem_cons_self _ _)
    unfold emitLoop
    rw [getD_of_lt ls default i hi]
    simp only [h0.1, h0.2, if_true, ne_eq, not_true_eq_false, if_false, Bool.false_eq_true]
    have h := ih ls (i + 1) (tr ++ [(ls[i].callback, args)]) (by omega)
      (fun l hl => hall l (List.mem_cons_of_mem _ hl))
    exact ⟨h.1, by rw [h.2]; omega⟩

/-- Dispatching an event a second time leaves it as the first dispatch did. -/
theorem afterEmit_afterEmit (P : Params) (a b : Args) (ev : Event) (hs : EventShape P ev)
    (ho : EventOk P ev) : afterEmit b (afterEmit a ev) = afterEmit a ev := by
  have hle := count_le_length P ev hs ho
  have h2 := eventOk_afterEmit P a ev hs ho
  have hle2 := count_le_length P _ h2.1 h2.2
  have hst := storedOf_afterEmit a ev hle
  have hall : ∀ l ∈ ((afterEmit a ev).listeners.drop 0).take (afterEmit a ev).listenerCount,
      l.active = true ∧ l.once = false := by
    intro l hl
    have hl2 : l ∈ storedOf (afterEmit a ev) := by simpa [storedOf] using hl
    rw [hst] at hl2
    have := (List.mem_filter.mp hl2).2
    simpa using this
  have h := emitLoop_persistent b (afterEmit a ev).listenerCount (afterEmit a ev).listeners 0 []
    (by omega) hall
  have h1 := h.1
  have h3 : (emitLoop b (afterEmit a ev).listeners 0 (afterEmit a ev).listenerCount 0 []).2.1
      = (afterEmit a ev).listenerCount := by rw [h.2]; omega
  have hact : (if (afterEmit a ev).listenerCount = 0 then false else (afterEmit a ev).active)
      = (afterEmit a ev).active := by
    split_ifs with h0
    · have h0b : (emitLoop a ev.listeners 0 ev.listenerCount 0 []).2.1 = 0 := h0
      simp [afterEmit, h0b]
    · rfl
  calc afterEmit b (afterEmit a ev)
      = { afterEmit a ev with
          listeners := (emitLoop b (afterEmit a ev).listeners 0 (afterEmit a ev).listenerCount 0 []).1,
          listenerCount :=
            (emitLoop b (afterEmit a ev).listeners 0 (afterEmit a ev).listenerCount 0 []).2.1,
          active :=
            if (emitLoop b (afterEmit a ev).listeners 0 (afterEmit a ev).listenerCount 0 []).2.1 = 0
            then false else (afterEmit a ev).active } := rfl
    _ = afterEmit a ev := by rw [h1, h3, hact]

theorem setSlot_setSlot (e : EventEmitter) (idx : Nat) (ev ev1 : Event) :
    setSlot (setSlot e idx ev) idx ev1 = setSlot e idx ev1 := by
  simp [setSlot]

/-- With registration names shorter than `MaxEventNameLength`, a second
`emit` for the same name leaves the emitter as the first one did. -/
theorem emit_idempotent_short (P : Params) (e : EventEmitter) (n : CStr) (a b : Args)
    (hr : ReachableShort P e) :
    (emit P (emit P e n a).state n b).state = (emit P e n a).state := by
  have hI := reachable_inv P e (reachableShort_reachable P e hr)
  have hS := reachableShort_shortInv P e hr
  cases hf : findEvent P e n with
  | none =>
    rw [emit_none P e n a hf]
    show (emit P e n b).state = e
    rw [emit_none P e n b hf]
  | some idx =>
    have hidx := findEvent_lt P e n idx hf
    have hlen := inv_lt_length P e hI idx hidx
    have hs := inv_shape_slot P e hI idx hidx
    have ho := hI.ok idx hidx
    rw [emit_some P e n a idx hf]
    show (emit P (setSlot e idx (afterEmit a (slot e idx))) n b).state
      = setSlot e idx (afterEmit a (slot e idx))
    cases hact : (afterEmit a (slot e idx)).active with
    | false =>
      rw [emit_none P _ n b (findEvent_none_setSlot P e n idx _ hI hS hf hact)]
    | true =>
      have hfs := (findEvent_some P e n idx).mp hf
      have hf1 : findEvent P (setSlot e idx (afterEmit a (slot e idx))) n = some idx := by
        rw [findEvent_some]
        refine ⟨hidx, ?_, ?_⟩
        · have hm := hfs.2.1
          simp only [matchesAt, Bool.and_eq_true] at hm ⊢
          rw [slot_setSlot_self e idx _ hlen]
          exact ⟨hact, hm.2⟩
        · intro j hj
          rw [matchesAt, slot_setSlot_ne e idx j _ (by omega)]
          exact hfs.2.2 j hj
      rw [emit_some P _ n b idx hf1]
      show setSlot (setSlot e idx (afterEmit a (slot e idx))) idx
        (afterEmit b (slot (setSlot e idx (afterEmit a (slot e idx))) idx)) = _
      rw [slot_setSlot_self e idx _ hlen, afterEmit_afterEmit P a b _ hs ho, setSlot_setSlot]

end EventEmitter
